import Mathlib

set_option maxRecDepth 100000

/-!
Verification of the Othello engine (`othello/bitboard.py`,
`othello/othello_board.py`, `othello/ai_features.py`): bit-packed boards,
chunked SWAR population count, flood-fill move generation, the play/pop
history discipline, the heuristics, and minimax / alpha-beta search.

All definitions are shallow embeddings of the Python source.  Python's
unbounded `while` loops over bit runs are embedded as fuel-indexed structural
recursions; the fuel passed at every call site (`size * size` board cells, or
one unit per 64-bit chunk) strictly exceeds the number of iterations the
Python loop can perform on the values the program feeds it, so the embedded
function agrees with the loop (comments at each definition give the bound).
-/

namespace Othello


/-! ## Reference bit counting

`countOnes v` is the number of 1-bits in the binary representation of `v`,
the specification against which `popcount` is checked (spec section 8). -/

/-- Number of 1-bits of `v` in binary: the reference counter. -/
def countOnes (v : Nat) : Nat :=
  if v = 0 then 0 else v % 2 + countOnes (v / 2)
termination_by v
decreasing_by exact Nat.div_lt_self (Nat.pos_of_ne_zero (by assumption)) one_lt_two


/-! ## SWAR popcount (`Bitboard.popcount`)

The source splits the integer into 64-bit chunks and applies the classical
masked pairwise-sum stages at granularities 1,2,4,8,16,32 to each chunk. -/

/-- One SWAR stage: `(x & m) + ((x >> s) & m)`. -/
def stage (s m x : Nat) : Nat := (x &&& m) + (x >>> s &&& m)


/-- One 64-bit chunk of `Bitboard.popcount`: the six stages exactly as in the
source (`chunk_n = (chunk_n & 0x5555...) + ((chunk_n >> 1) & 0x5555...)`, ...). -/
def swarChunk (c : Nat) : Nat :=
  let c1 := (c &&& 0x5555555555555555) + (c >>> 1 &&& 0x5555555555555555)
  let c2 := (c1 &&& 0x3333333333333333) + (c1 >>> 2 &&& 0x3333333333333333)
  let c3 := (c2 &&& 0x0F0F0F0F0F0F0F0F) + (c2 >>> 4 &&& 0x0F0F0F0F0F0F0F0F)
  let c4 := (c3 &&& 0x00FF00FF00FF00FF) + (c3 >>> 8 &&& 0x00FF00FF00FF00FF)
  let c5 := (c4 &&& 0x0000FFFF0000FFFF) + (c4 >>> 16 &&& 0x0000FFFF0000FFFF)
  (c5 &&& 0x00000000FFFFFFFF) + (c5 >>> 32 &&& 0x00000000FFFFFFFF)


/-- The chunk loop of `Bitboard.popcount` (`while remaining_bits > 0: ...;
remaining_bits >>= 64`), one unit of fuel per chunk: on any value below
`2 ^ (64 * fuel)` the loop reaches `0` before the fuel runs out, so this is
the Python loop itself there. -/
def swarLoop : Nat → Nat → Nat
  | 0, _ => 0
  | f + 1, v =>
    if v = 0 then 0
    else swarChunk (v &&& 0xFFFFFFFFFFFFFFFF) + swarLoop f (v >>> 64)


/-! ### Field decompositions for the SWAR proof -/

/-- Value of a list of `w`-bit fields, lowest field first. -/
def fieldSum (w : Nat) : List Nat → Nat
  | [] => 0
  | c :: cs => c + 2 ^ w * fieldSum w cs


/-- Merge adjacent `w`-bit fields into `2*w`-bit fields. -/
def pairUp (w : Nat) : List Nat → List Nat
  | [] => []
  | [a] => [a]
  | a :: b :: t => (a + 2 ^ w * b) :: pairUp w t


/-- The periodic SWAR mask: `n` cells of `2*s` bits, each holding `s` low
one-bits. -/
def maskP (s : Nat) : Nat → Nat
  | 0 => 0
  | n + 1 => 2 ^ s - 1 + 2 ^ (2 * s) * maskP s n


/-- Action of one SWAR stage on a single `2*s`-bit cell. -/
def stageA (s a : Nat) : Nat := (a &&& 2 ^ s - 1) + (a >>> s &&& 2 ^ s - 1)


/-- One whole level of the SWAR pyramid on the field list. -/
def swarStep (s : Nat) (l : List Nat) : List Nat := (pairUp s l).map (stageA s)


/-- Base-`2^w` digits, low digit first, exactly `n` of them. -/
def digitsW (w : Nat) : Nat → Nat → List Nat
  | 0, _ => []
  | n + 1, c => c % 2 ^ w :: digitsW w n (c / 2 ^ w)


/-! ## Colors (`othello_board.Color`) -/

/-- The four cell states of `othello_board.Color`. -/
inductive Color where
  | BLACK
  | WHITE
  | POSSIBLE
  | EMPTY
deriving DecidableEq


/-- `Color.__invert__`: Black and White swap, anything else maps to Empty. -/
def Color.invert : Color → Color
  | .BLACK => .WHITE
  | .WHITE => .BLACK
  | _ => .EMPTY


/-- The exception kinds raised by the embedded code: `IndexError` from
`Bitboard.__check_bit_idx_is_legal` (and from `list.pop` on an empty list),
`IllegalMoveException`, `CannotPopException`, and `ZeroDivisionError`. -/
inductive PyErr where
  | indexError
  | illegalMove
  | cannotPop
  | zeroDivision
deriving DecidableEq


/-! ## Bitboards (`bitboard.Bitboard` and `BitboardProperties`) -/

/-- The mask-building loop of `BitboardProperties.get`: for each cell index
`i` it ORs `1 << i` into `mask`, into `west_mask` iff `i % size != 0`, and
into `east_mask` iff `i % size != size - 1`. -/
def propLoop (size : Nat) : Nat → Nat × Nat × Nat
  | 0 => (0, 0, 0)
  | i + 1 =>
    let p := propLoop size i
    (p.1 ||| 1 <<< i,
     if i % size ≠ 0 then p.2.1 ||| 1 <<< i else p.2.1,
     if i % size ≠ size - 1 then p.2.2 ||| 1 <<< i else p.2.2)


/-- `BitboardProperties.get(size).mask`. -/
def boardMask (size : Nat) : Nat := (propLoop size (size * size)).1


/-- `BitboardProperties.get(size).west_mask`. -/
def westMask (size : Nat) : Nat := (propLoop size (size * size)).2.1


/-- `BitboardProperties.get(size).east_mask`. -/
def eastMask (size : Nat) : Nat := (propLoop size (size * size)).2.2


/-- A bitboard: a board size and the packed bits. -/
structure Bitboard where
  size : Nat
  bits : Nat
deriving DecidableEq


/-- `Bitboard.__init__(size, bits)`: stores `bits & mask`. -/
def mkBitboard (size bits : Nat) : Bitboard := ⟨size, bits &&& boardMask size⟩


/-- `Bitboard.set`: bit index `y*size + x`, checked by
`__check_bit_idx_is_legal` against `[0, size*size)`; setting uses `|=`,
clearing ANDs with the board mask XOR the bit. -/
def Bitboard.set (bb : Bitboard) (x y : Int) (value : Bool) : Except PyErr Bitboard :=
  let idx : Int := y * bb.size + x
  if 0 ≤ idx ∧ idx < bb.size * bb.size then
    if value then .ok ⟨bb.size, bb.bits ||| 1 <<< idx.toNat⟩
    else .ok ⟨bb.size, bb.bits &&& (boardMask bb.size ^^^ 1 <<< idx.toNat)⟩
  else .error .indexError


/-- `Bitboard.get`: same index check; returns the raw integer
`bits & (1 << idx)` as the source does (truthy iff nonzero). -/
def Bitboard.get (bb : Bitboard) (x y : Int) : Except PyErr Nat :=
  let idx : Int := y * bb.size + x
  if 0 ≤ idx ∧ idx < bb.size * bb.size then .ok (bb.bits &&& 1 <<< idx.toNat)
  else .error .indexError


/-- `Bitboard.set` at an index the caller has already validated (the
error branch is unreachable at every use site below). -/
def Bitboard.setD (bb : Bitboard) (x y : Int) (value : Bool) : Bitboard :=
  match bb.set x y value with
  | .ok b => b
  | .error _ => bb


/-- `Bitboard.popcount`: the chunked SWAR loop.  A bitboard's `bits` always
fits in `size*size` bits and the loop consumes 64 bits per iteration, so
`size*size` fuel units exceed the iteration count of the Python `while`. -/
def Bitboard.popcount (bb : Bitboard) : Nat := swarLoop (bb.size * bb.size) bb.bits


/-- `int.bit_length` for arguments below `2 ^ fuel`. -/
def bitLen : Nat → Nat → Nat
  | 0, _ => 0
  | f + 1, n => if n = 0 then 0 else bitLen f (n / 2) + 1


/-- The bit-extraction loop of `Bitboard.hot_bits_coordinates`: isolate the
lowest set bit (`v & -v` on Python ints; on `Nat` the identical single bit
is `v ^^^ (v &&& (v - 1))`), convert its index to `(x, y)`, clear it with
`v &= v - 1`.  One fuel unit per set bit: a board mask has at most
`size*size` of them. -/
def hotBits (size : Nat) : Nat → Nat → List (Nat × Nat)
  | 0, _ => []
  | f + 1, bits =>
    if bits = 0 then []
    else
      let low := bits ^^^ (bits &&& (bits - 1))
      let pos := bitLen (size * size) low - 1
      (pos % size, pos / size) :: hotBits size f (bits &&& (bits - 1))


/-- `Bitboard.hot_bits_coordinates`. -/
def Bitboard.hotBitsCoords (bb : Bitboard) : List (Nat × Nat) :=
  hotBits bb.size (bb.size * bb.size) bb.bits


/-! ## Game state (`othello_board.OthelloBoard`) -/

/-- One entry of the `__history` stack:
`(black, white, x, y, current_player)` snapshots taken before a move
(`x = y = -1` marks a pass). -/
structure HistEntry where
  black : Bitboard
  white : Bitboard
  x : Int
  y : Int
  player : Color
deriving DecidableEq


/-- `OthelloBoard`: sizes, the two bitboards, the player to move, the
history stack (head = top, i.e. the end of the Python list), and the
`forced_game_over` flag. -/
structure GameState where
  size : Nat
  black : Bitboard
  white : Bitboard
  current : Color
  history : List HistEntry
  forced : Bool
deriving DecidableEq


/-- The run loop shared by all eight directions of
`OthelloBoard.shift_along`:
`while tmp: moves |= empty & step(tmp); tmp = o & step(tmp)`.
Each pass moves the whole run one cell further in a fixed direction, so on
board values the run dies within `size*size` passes, which the fuel covers. -/
def runLoop (step : Nat → Nat) (o e : Nat) : Nat → Nat → Nat → Nat
  | 0, _, acc => acc
  | f + 1, tmp, acc =>
    if tmp = 0 then acc
    else runLoop step o e f (o &&& step tmp) (acc ||| (e &&& step tmp))


/-- `OthelloBoard.shift_along(bits_o, bits_p)`: the inlined eight-direction
flood fill producing the legal-destination mask.  `empty_bits` is
`(~(p | o)) & mask`, written mask-relatively as
`mask ^^^ ((p ||| o) &&& mask)` (the same integer).  The eight step
functions appear in the source's order. -/
def shiftAlong (size bitsO bitsP : Nat) : Nat :=
  let mask := boardMask size
  let west := westMask size
  let east := eastMask size
  let e := mask ^^^ ((bitsP ||| bitsO) &&& mask)
  let fuel := size * size
  let s1 := fun t => (t >>> size) &&& mask
  let s2 := fun t => (t <<< size) &&& mask
  let s3 := fun t => ((t <<< 1) &&& west) &&& mask
  let s4 := fun t => ((t >>> 1) &&& east) &&& mask
  let s5 := fun t => ((t >>> (size - 1)) &&& west) &&& mask
  let s6 := fun t => ((t >>> (size + 1)) &&& east) &&& mask
  let s7 := fun t => ((t <<< (size + 1)) &&& west) &&& mask
  let s8 := fun t => ((t <<< (size - 1)) &&& east) &&& mask
  let m1 := runLoop s1 bitsO e fuel (bitsO &&& s1 bitsP) 0
  let m2 := runLoop s2 bitsO e fuel (bitsO &&& s2 bitsP) m1
  let m3 := runLoop s3 bitsO e fuel (bitsO &&& s3 bitsP) m2
  let m4 := runLoop s4 bitsO e fuel (bitsO &&& s4 bitsP) m3
  let m5 := runLoop s5 bitsO e fuel (bitsO &&& s5 bitsP) m4
  let m6 := runLoop s6 bitsO e fuel (bitsO &&& s6 bitsP) m5
  let m7 := runLoop s7 bitsO e fuel (bitsO &&& s7 bitsP) m6
  runLoop s8 bitsO e fuel (bitsO &&& s8 bitsP) m7


/-- `OthelloBoard.line_cap_move(current_player)`: note the
`current_player is Color.BLACK` identity test — any argument other than
`Color.BLACK` (White, Empty, or even a non-Color value as in
`mobility_heuristic`) selects white's bits as the mover. -/
def lineCapMove (st : GameState) (cp : Color) : Bitboard :=
  let bitsP := if cp = Color.BLACK then st.black.bits else st.white.bits
  let bitsO := if cp = Color.BLACK then st.white.bits else st.black.bits
  mkBitboard st.size (shiftAlong st.size bitsO bitsP)


/-- The eight compass directions of `bitboard.Direction`, in source order. -/
inductive Direction where
  | north
  | south
  | east
  | west
  | northEast
  | northWest
  | southEast
  | southWest
deriving DecidableEq


/-- `Bitboard.shift` on raw bits: each `__shift_X` computes
`((bits OP shiftamount) & directional-mask) & mask`. -/
def shiftBits (size : Nat) (d : Direction) (b : Nat) : Nat :=
  let mask := boardMask size
  match d with
  | .north => (b >>> size) &&& mask
  | .south => (b <<< size) &&& mask
  | .east => ((b <<< 1) &&& westMask size) &&& mask
  | .west => ((b >>> 1) &&& eastMask size) &&& mask
  | .northEast => ((b >>> (size - 1)) &&& westMask size) &&& mask
  | .northWest => ((b >>> (size + 1)) &&& eastMask size) &&& mask
  | .southEast => ((b <<< (size + 1)) &&& westMask size) &&& mask
  | .southWest => ((b <<< (size - 1)) &&& eastMask size) &&& mask


/-- One direction of `OthelloBoard.line_cap`: advance the single-bit
pointer, extend the run over opponent cells, commit it on reaching an own
cell, abandon it otherwise.  The single bit leaves the board within
`size*size` steps, which the fuel covers. -/
def capDir (size : Nat) (d : Direction) (bitsP bitsO : Nat) :
    Nat → Nat → Nat → Nat → Nat
  | 0, _, _, cap => cap
  | f + 1, ptr, dirMask, cap =>
    let ptr2 := shiftBits size d ptr
    if ptr2 &&& bitsO ≠ 0 then capDir size d bitsP bitsO f ptr2 (dirMask ||| ptr2) cap
    else if ptr2 &&& bitsP ≠ 0 then cap ||| dirMask
    else cap


/-- `OthelloBoard.line_cap(x, y, current_player)`: capture mask of a
placement, not validated for legality (the in-range position bit is set by
`position.set(x, y, True)`, whose index every caller below has already
checked). -/
def lineCap (st : GameState) (x y : Int) (cp : Color) : Bitboard :=
  let bitsP := if cp = Color.BLACK then st.black.bits else st.white.bits
  let bitsO := if cp = Color.BLACK then st.white.bits else st.black.bits
  let posBits := ((mkBitboard st.size 0).setD x y true).bits
  let dirs := [Direction.north, .south, .east, .west, .northEast, .northWest,
    .southEast, .southWest]
  let capBits := dirs.foldl
    (fun cap d => capDir st.size d bitsP bitsO (st.size * st.size) posBits posBits cap)
    posBits
  mkBitboard st.size capBits


/-- `OthelloBoard.play(x, y)`.  The pair holds the state after the call and
the raised exception, if any; both error paths of the source raise before
any attribute is assigned, so the state component there is the input state.
The Python history list grows at its end; here the top of the stack is the
head of `history`. -/
def play (st : GameState) (x y : Int) : GameState × Option PyErr :=
  if x = -1 ∧ y = -1 then
    ({ st with history := ⟨st.black, st.white, -1, -1, st.current⟩ :: st.history }, none)
  else
    let legalMoves := lineCapMove st st.current
    let idx : Int := y * st.size + x
    if ¬(0 ≤ idx ∧ idx < st.size * st.size) then (st, some .indexError)
    else if legalMoves.bits &&& 1 <<< idx.toNat ≠ 0 then
      let captureMask := lineCap st x y st.current
      let entry : HistEntry := ⟨st.black, st.white, x, y, st.current⟩
      let bbP := if st.current = Color.BLACK then st.black else st.white
      let bbO := if st.current = Color.BLACK then st.white else st.black
      let bbP2 := mkBitboard st.size (bbP.bits ||| captureMask.bits)
      let bbO2 := mkBitboard st.size
        (bbO.bits &&& (boardMask st.size ^^^ captureMask.bits &&& boardMask st.size))
      let newBlack := if st.current = Color.BLACK then bbP2 else bbO2
      let newWhite := if st.current = Color.BLACK then bbO2 else bbP2
      let st2 : GameState :=
        { st with
            black := newBlack
            white := newWhite
            current := st.current.invert
            history := entry :: st.history }
      if (lineCapMove st2 st2.current).bits = 0 then
        ({ st2 with
            history := ⟨st2.black, st2.white, -1, -1, st2.current⟩ :: st2.history
            current := st2.current.invert }, none)
      else (st2, none)
    else (st, some .illegalMove)


/-- `OthelloBoard.pop()`.  A pass entry on top makes the source pop twice;
the second pop on an exhausted list raises Python's `IndexError` with the
first entry already removed. -/
def pop (st : GameState) : GameState × Option PyErr :=
  match st.history with
  | [] => (st, some .cannotPop)
  | e :: rest =>
    if e.x = -1 ∧ e.y = -1 then
      match rest with
      | [] => ({ st with history := [] }, some .indexError)
      | e2 :: rest2 =>
        ({ st with
            black := e2.black
            white := e2.white
            current := e2.player
            history := rest2 }, none)
    else
      ({ st with
          black := e.black
          white := e.white
          current := e.player
          history := rest }, none)


/-- `OthelloBoard.__init__` with fresh bitboards plus `__init_board`: white
discs at `(s/2-1, s/2-1)` and `(s/2, s/2)`, black at `(s/2-1, s/2)` and
`(s/2, s/2-1)`; Black to move; empty history. -/
def initState (size : Nat) : GameState :=
  let z := mkBitboard size 0
  let h : Int := (size : Int) / 2
  let w1 := (z.setD (h - 1) (h - 1) true).setD h h true
  let b1 := (z.setD (h - 1) h true).setD h (h - 1) true
  { size := size, black := b1, white := w1, current := Color.BLACK,
    history := [], forced := false }


/-- `OthelloBoard.is_game_over()`. -/
def isGameOver (st : GameState) : Bool :=
  st.forced || (decide ((lineCapMove st st.current).popcount = 0)
    && decide ((lineCapMove st st.current.invert).popcount = 0))


/-! ## Heuristics (`ai_features`)

Python evaluates `int(100 * d / t)` through float division; for every
numerator and denominator these heuristics can produce (`|100 * d| ≤ 28800`,
`1 ≤ t ≤ 288`) the quotient's distance from any unequal integer is at least
`1/288`, far above double rounding error, and exact quotients are exact in
IEEE arithmetic — so `int(...)` is truncation toward zero: `Int.tdiv`. -/

/-- `get_player_at`: which color occupies `(x, y)`.  The corner coordinates
passed to it below are always in range, so the raw bit test agrees with the
checked `Bitboard.get`. -/
def getPlayerAt (st : GameState) (x y : Nat) : Color :=
  if st.black.bits &&& 1 <<< (y * st.black.size + x) ≠ 0 then Color.BLACK
  else if st.white.bits &&& 1 <<< (y * st.white.size + x) ≠ 0 then Color.WHITE
  else Color.EMPTY


/-- `corners_captured_heuristic`. -/
def cornersCapturedHeuristic (st : GameState) (maxPlayer : Color) : Int :=
  let corners := [(0, 0), (st.size - 1, 0), (0, st.size - 1), (st.size - 1, st.size - 1)]
  let maxC := (corners.filter (fun c => getPlayerAt st c.1 c.2 = maxPlayer)).length
  let minC := (corners.filter (fun c => getPlayerAt st c.1 c.2 = maxPlayer.invert)).length
  if maxC + minC ≠ 0 then Int.tdiv (100 * ((maxC : Int) - minC)) ((maxC : Int) + minC)
  else 0


/-- The value domain of `coin_parity` / `mobility` as written: an integer
score, or the `Color.EMPTY` sentinel returned for a non-Black/White player. -/
inductive HVal where
  | int (n : Int)
  | color (c : Color)
deriving DecidableEq


/-- `coin_parity_heuristic`, exactly as in the source: no zero guard, so a
board with no discs raises `ZeroDivisionError`. -/
def coinParityHeuristicE (st : GameState) (maxPlayer : Color) : Except PyErr HVal :=
  let blackCount := st.black.popcount
  let whiteCount := st.white.popcount
  if maxPlayer = Color.BLACK then
    if (blackCount : Int) + whiteCount = 0 then .error .zeroDivision
    else .ok (.int (Int.tdiv (100 * ((blackCount : Int) - whiteCount))
      ((blackCount : Int) + whiteCount)))
  else if maxPlayer = Color.WHITE then
    if (whiteCount : Int) + blackCount = 0 then .error .zeroDivision
    else .ok (.int (Int.tdiv (100 * ((whiteCount : Int) - blackCount))
      ((whiteCount : Int) + blackCount)))
  else .ok (.color Color.EMPTY)


/-- Totalised `coin_parity_heuristic` for use inside the search embedding;
the search theorems below only invoke it where the source returns an
integer without raising. -/
def coinParityHeuristic (st : GameState) (maxPlayer : Color) : Int :=
  match coinParityHeuristicE st maxPlayer with
  | .ok (.int n) => n
  | _ => 0


/-- `mobility_heuristic`, exactly as in the source: both counts come from
`board.line_cap_move(board.black)` and `board.line_cap_move(board.white)`,
which pass *Bitboards* where a `Color` is expected; the
`current_player is Color.BLACK` identity test inside `line_cap_move` is
false for both calls, so both use `bits_p = white.bits`,
`bits_o = black.bits` — both counts are White's move count. -/
def mobilityHeuristicV (st : GameState) (maxPlayer : Color) : HVal :=
  let blackMoveCount :=
    (mkBitboard st.size (shiftAlong st.size st.black.bits st.white.bits)).popcount
  let whiteMoveCount :=
    (mkBitboard st.size (shiftAlong st.size st.black.bits st.white.bits)).popcount
  if blackMoveCount + whiteMoveCount ≠ 0 then
    if maxPlayer = Color.BLACK then
      .int (Int.tdiv (100 * ((blackMoveCount : Int) - whiteMoveCount))
        ((blackMoveCount : Int) + whiteMoveCount))
    else if maxPlayer = Color.WHITE then
      .int (Int.tdiv (100 * ((whiteMoveCount : Int) - blackMoveCount))
        ((whiteMoveCount : Int) + blackMoveCount))
    else .color Color.EMPTY
  else .int 0


/-- Totalised `mobility_heuristic` for the search embedding. -/
def mobilityHeuristic (st : GameState) (maxPlayer : Color) : Int :=
  match mobilityHeuristicV st maxPlayer with
  | .int n => n
  | .color _ => 0


/-- `all_in_one_heuristic`: `10*corners + 4*mobility + 1*coin_parity`. -/
def allInOneHeuristic (st : GameState) (maxPlayer : Color) : Int :=
  10 * cornersCapturedHeuristic st maxPlayer + 4 * mobilityHeuristic st maxPlayer
    + 1 * coinParityHeuristic st maxPlayer


/-! ## Search (`minimax`, `alphabeta`, `find_best_move`)

Scores are integers extended with the `float("-inf")` / `float("inf")`
sentinels, modeled as `⊥` and `⊤` of `WithBot (WithTop ℤ)`. -/

/-- Search scores: integers with both infinities. -/
abbrev Ext := WithBot (WithTop ℤ)


/-- A finite score. -/
def Ext.fin (n : Int) : Ext := ((n : WithTop ℤ) : WithBot (WithTop ℤ))


/-- Python's `int(...)` on the value stored back into `alpha` / `beta`.
Those values are integral floats whenever the conversion runs (the running
evaluation is finite after the first child — `minimax_isFin` /
`alphabeta_isFin` below), so the conversion is the identity. -/
def pyInt (e : Ext) : Ext := e


/-- `board.play(move)` inside the search.  The move always comes from the
current legal-move mask, so `play` succeeds; the `play`/`pop` pair around
each recursive call is embedded functionally (`pop` restores the pre-move
state exactly — see `play_pop_restores`). -/
def playMove (st : GameState) (m : Nat × Nat) : GameState :=
  (play st (m.1 : Int) (m.2 : Int)).1


/-- `minimax(board, depth, max_player, heuristic)`; recursion is structural
on `depth` (every recursive call, including the no-move branch, uses
`depth - 1`). -/
def minimax : Nat → GameState → Color → (GameState → Color → Int) → Ext
  | 0, st, maxPlayer, h => Ext.fin (h st maxPlayer)
  | d + 1, st, maxPlayer, h =>
    if isGameOver st then Ext.fin (h st maxPlayer)
    else
      let validMoves := (lineCapMove st st.current).hotBitsCoords
      if validMoves = [] then minimax d st maxPlayer h
      else if maxPlayer = st.current then
        validMoves.foldl (fun ev m => max ev (minimax d (playMove st m) maxPlayer h)) ⊥
      else
        validMoves.foldl (fun ev m => min ev (minimax d (playMove st m) maxPlayer h)) ⊤


/-- The maximizing loop of `alphabeta`: evaluate the child under the
current window, merge into the running evaluation, tighten `alpha`
(`alpha = int(max(alpha, evaluation))`), break when `beta <= alpha`. -/
def abFoldMax (f : Nat × Nat → Ext → Ext → Ext) (b : Ext) :
    List (Nat × Nat) → Ext → Ext → Ext
  | [], _, ev => ev
  | m :: ms, a, ev =>
    let s := f m a b
    let ev2 := max ev s
    let a2 := pyInt (max a ev2)
    if b ≤ a2 then ev2 else abFoldMax f b ms a2 ev2


/-- The minimizing loop of `alphabeta`: tighten `beta`
(`beta := int(min(beta, evaluation))`), break when `beta <= alpha`. -/
def abFoldMin (f : Nat × Nat → Ext → Ext → Ext) (a : Ext) :
    List (Nat × Nat) → Ext → Ext → Ext
  | [], _, ev => ev
  | m :: ms, b, ev =>
    let s := f m a b
    let ev2 := min ev s
    let b2 := pyInt (min b ev2)
    if b2 ≤ a then ev2 else abFoldMin f a ms b2 ev2


/-- `alphabeta(board, depth, alpha, beta, max_player, heuristic)`.  When the
side to move has no legal move the source calls `minimax(board, depth-1,
...)`, not itself. -/
def alphabeta : Nat → GameState → Ext → Ext → Color → (GameState → Color → Int) → Ext
  | 0, st, _, _, maxPlayer, h => Ext.fin (h st maxPlayer)
  | d + 1, st, a, b, maxPlayer, h =>
    if isGameOver st then Ext.fin (h st maxPlayer)
    else
      let validMoves := (lineCapMove st st.current).hotBitsCoords
      if validMoves = [] then minimax d st maxPlayer h
      else if maxPlayer = st.current then
        abFoldMax (fun m a2 b2 => alphabeta d (playMove st m) a2 b2 maxPlayer h)
          b validMoves a ⊥
      else
        abFoldMin (fun m a2 b2 => alphabeta d (playMove st m) a2 b2 maxPlayer h)
          a validMoves b ⊤


/-- The heuristic-name resolution of `find_best_move`: any unknown name
falls back to `all_in_one` (not an error), in the source's test order. -/
def resolveHeuristic (name : String) : GameState → Color → Int :=
  if name = "coin_parity" then coinParityHeuristic
  else if name = "corners_captured" then cornersCapturedHeuristic
  else if name = "mobility" then mobilityHeuristic
  else allInOneHeuristic


/-- `find_best_move(board, depth, max_player, search_algo, heuristic)`:
returns `(-1, -1)` at depth 0 or when the game is over; deep-clones the
board per candidate move (functional embedding), evaluates the remainder
with `minimax` when `search_algo == "minimax"` and otherwise `alphabeta`
under fresh infinite bounds, and keeps a move only on a strict improvement
(`score > best_score`) over the initial best score: `-inf` when
`max_player == current_player`, `+inf` otherwise.  The `benchmark`
parameter only prints timing. -/
def findBestMove (st : GameState) (depth : Nat) (maxPlayer : Color)
    (searchAlgo : String) (heuristic : String) : Int × Int :=
  if depth = 0 ∨ isGameOver st then (-1, -1)
  else
    let h := resolveHeuristic heuristic
    let validMoves := (lineCapMove st st.current).hotBitsCoords
    let best := validMoves.foldl
      (fun acc m =>
        let score :=
          if searchAlgo = "minimax" then minimax (depth - 1) (playMove st m) maxPlayer h
          else alphabeta (depth - 1) (playMove st m) ⊥ ⊤ maxPlayer h
        if acc.2 < score then (((m.1 : Int), (m.2 : Int)), score) else acc)
      ((-1, -1), if maxPlayer = st.current then (⊥ : Ext) else ⊤)
    best.1


/-! ## Example boards used by individual claims -/

/-- A 6×6 position: one black disc at `(0,0)`, one white disc at `(1,0)`,
Black to move.  Black's only legal move is `(2,0)`; White has none. -/
def boardOneMove : GameState :=
  ⟨6, mkBitboard 6 1, mkBitboard 6 2, Color.BLACK, [], false⟩


/-- A 6×6 board with no discs at all (buildable through the
`OthelloBoard(size, black, white)` constructor with empty bitboards). -/
def boardNoDiscs : GameState :=
  ⟨6, mkBitboard 6 0, mkBitboard 6 0, Color.BLACK, [], false⟩


/-! ## Disjointness invariant (C8) -/

/-- Reachable game states: an initial board of a legal size
(`BoardSize ∈ {6,8,10,12}`), or the state left behind by any `play` or
`pop` call (including calls that raise: those leave the state component of
the embedding, which is what the source object holds afterwards). -/
inductive Reachable : GameState → Prop where
  | init (size : Nat) :
      size = 6 ∨ size = 8 ∨ size = 10 ∨ size = 12 → Reachable (initState size)
  | playStep (st : GameState) (x y : Int) : Reachable st → Reachable (play st x y).1
  | popStep (st : GameState) : Reachable st → Reachable (pop st).1


/-- The invariant carried through the induction: the two boards are
disjoint now and in every history snapshot. -/
def DisjointState (st : GameState) : Prop :=
  st.black.bits &&& st.white.bits = 0 ∧
    ∀ e ∈ st.history, e.black.bits &&& e.white.bits = 0


/-! ## Alpha-beta agrees with minimax (C2)

The proof is by the classical fail-soft window argument: an `alphabeta`
call with window `(a, b)` returns the exact minimax value when the result
lands strictly inside the window, an upper bound on it when failing low,
and a lower bound when failing high; at the full window `(-inf, inf)` all
three cases force equality. -/

/-- The fail-soft window contract between an alpha-beta result `r` and the
exact minimax value `v` for window `(a, b)`. -/
def KM (r v a b : Ext) : Prop :=
  (r ≤ a → v ≤ r) ∧ (b ≤ r → r ≤ v) ∧ (a < r → r < b → r = v)

/-! ## Theorems -/


theorem countOnes_zero : countOnes 0 = 0 := by
  unfold countOnes; simp


theorem countOnes_of_pos (v : Nat) (hv : v ≠ 0) :
    countOnes v = v % 2 + countOnes (v / 2) := by
  conv_lhs => unfold countOnes
  simp [hv]


theorem countOnes_eq_zero_iff (v : Nat) : countOnes v = 0 ↔ v = 0 := by
  induction v using Nat.strong_induction_on with
  | _ v ih =>
    constructor
    · intro h
      by_contra hv
      rw [countOnes_of_pos v hv] at h
      have hc : countOnes (v / 2) = 0 := by omega
      have hd : v / 2 = 0 :=
        (ih (v / 2) (Nat.div_lt_self (Nat.pos_of_ne_zero hv) one_lt_two)).mp hc
      omega
    · rintro rfl; exact countOnes_zero


/-! ## Bit-vector concatenation helpers

`a + 2 ^ k * b` with `a < 2 ^ k` is the concatenation of the `k`-bit value
`a` (low) with `b` (high); the lemmas below push `testBit`, `&&&`, `|||`,
and right shifts through this decomposition. -/

theorem add_pow_mul_div_le (a b k i : Nat) (h : i ≤ k) :
    (a + 2 ^ k * b) / 2 ^ i = a / 2 ^ i + 2 ^ (k - i) * b := by
  have hk : (2 : Nat) ^ k = 2 ^ i * 2 ^ (k - i) := by
    rw [← pow_add]; congr 1; omega
  rw [hk, mul_assoc, Nat.add_mul_div_left _ _ (Nat.pos_pow_of_pos i (by norm_num))]


theorem add_pow_mul_div_ge (a b k i : Nat) (ha : a < 2 ^ k) (h : k ≤ i) :
    (a + 2 ^ k * b) / 2 ^ i = b / 2 ^ (i - k) := by
  have hi : (2 : Nat) ^ i = 2 ^ k * 2 ^ (i - k) := by
    rw [← pow_add]; congr 1; omega
  rw [hi, ← Nat.div_div_eq_div_mul, Nat.add_mul_div_left _ _ (Nat.pos_pow_of_pos k (by norm_num)),
    Nat.div_eq_of_lt ha, Nat.zero_add]


theorem testBit_concat (a b k i : Nat) (ha : a < 2 ^ k) :
    (a + 2 ^ k * b).testBit i = if i < k then a.testBit i else b.testBit (i - k) := by
  by_cases h : i < k
  · simp only [h, if_true, Nat.testBit_to_div_mod]
    rw [add_pow_mul_div_le a b k i (Nat.le_of_lt h)]
    have hpos : 0 < k - i := by omega
    have h2 : (2 : Nat) ^ (k - i) = 2 * 2 ^ (k - i - 1) := by
      rw [← pow_succ']; congr 1; omega
    rw [h2, mul_assoc, Nat.add_mul_mod_self_left]
  · simp only [h, if_false, Nat.testBit_to_div_mod]
    rw [add_pow_mul_div_ge a b k i ha (by omega)]


theorem land_concat (a b m k : Nat) (ha : a < 2 ^ k) :
    (a + 2 ^ k * b) &&& m = (a &&& m % 2 ^ k) + 2 ^ k * (b &&& m / 2 ^ k) := by
  have hlt : a &&& m % 2 ^ k < 2 ^ k :=
    Nat.lt_of_le_of_lt Nat.and_le_right (Nat.mod_lt _ (Nat.pos_pow_of_pos k (by norm_num)))
  apply Nat.eq_of_testBit_eq
  intro i
  rw [Nat.testBit_land, testBit_concat a b k i ha, testBit_concat _ _ k i hlt]
  by_cases h : i < k
  · simp [h, Nat.testBit_land, Nat.testBit_mod_two_pow]
  · have hdiv : m / 2 ^ k = m >>> k := (Nat.shiftRight_eq_div_pow m k).symm
    simp only [h, if_false, Nat.testBit_land, hdiv, Nat.testBit_shiftRight]
    congr 2
    omega


theorem lor_concat (a b m k : Nat) (ha : a < 2 ^ k) :
    (a + 2 ^ k * b) ||| m = (a ||| m % 2 ^ k) + 2 ^ k * (b ||| m / 2 ^ k) := by
  have hlt : a ||| m % 2 ^ k < 2 ^ k :=
    Nat.or_lt_two_pow ha (Nat.mod_lt _ (Nat.pos_pow_of_pos k (by norm_num)))
  apply Nat.eq_of_testBit_eq
  intro i
  rw [Nat.testBit_lor, testBit_concat a b k i ha, testBit_concat _ _ k i hlt]
  by_cases h : i < k
  · simp [h, Nat.testBit_lor, Nat.testBit_mod_two_pow]
  · have hdiv : m / 2 ^ k = m >>> k := (Nat.shiftRight_eq_div_pow m k).symm
    simp only [h, if_false, Nat.testBit_lor, hdiv, Nat.testBit_shiftRight]
    congr 2
    omega


theorem land_mul_pow (b M s : Nat) : b &&& 2 ^ s * M = 2 ^ s * (b >>> s &&& M) := by
  apply Nat.eq_of_testBit_eq
  intro i
  have hshl : ∀ x : Nat, 2 ^ s * x = x <<< s := by
    intro x; rw [Nat.shiftLeft_eq, mul_comm]
  rw [Nat.testBit_land, hshl, hshl, Nat.testBit_shiftLeft, Nat.testBit_shiftLeft]
  by_cases h : s ≤ i
  · have hd : decide (i ≥ s) = true := decide_eq_true h
    have hi : s + (i - s) = i := by omega
    simp only [hd, Bool.true_and, Nat.testBit_land, Nat.testBit_shiftRight, hi]
  · have hd : decide (i ≥ s) = false := by simp [ge_iff_le, h]
    simp [hd]


theorem land_self_of_lt (x k : Nat) (hx : x < 2 ^ k) : x &&& 2 ^ k - 1 = x := by
  rw [Nat.and_pow_two_sub_one_eq_mod, Nat.mod_eq_of_lt hx]


theorem shiftRight_concat_self (a b k : Nat) (ha : a < 2 ^ k) :
    (a + 2 ^ k * b) >>> k = b := by
  rw [Nat.shiftRight_eq_div_pow, add_pow_mul_div_ge a b k k ha (le_refl k)]
  simp


theorem countOnes_concat (k : Nat) :
    ∀ a b : Nat, a < 2 ^ k → countOnes (a + 2 ^ k * b) = countOnes a + countOnes b := by
  induction k with
  | zero =>
    intro a b ha
    have : a = 0 := by omega
    subst this
    simp [countOnes_zero]
  | succ k ih =>
    intro a b ha
    have h2 : (2 : Nat) ^ (k + 1) = 2 * 2 ^ k := by rw [pow_succ']
    by_cases hz : a + 2 ^ (k + 1) * b = 0
    · have ha0 : a = 0 := by omega
      have hb0 : b = 0 := by
        rcases Nat.mul_eq_zero.mp (by omega : 2 ^ (k + 1) * b = 0) with hp | hb
        · simp at hp
        · exact hb
      subst ha0; subst hb0
      simp [countOnes_zero]
    · rw [countOnes_of_pos _ hz]
      have hmod : (a + 2 ^ (k + 1) * b) % 2 = a % 2 := by
        rw [h2, mul_assoc, Nat.add_mul_mod_self_left]
      have hdivv : (a + 2 ^ (k + 1) * b) / 2 = a / 2 + 2 ^ k * b := by
        rw [h2, mul_assoc, Nat.add_mul_div_left _ _ (by norm_num : (0 : Nat) < 2)]
      have ha2 : a / 2 < 2 ^ k := by omega
      rw [hmod, hdivv, ih (a / 2) b ha2]
      by_cases haz : a = 0
      · subst haz; simp [countOnes_zero]
      · rw [countOnes_of_pos a haz]; omega


theorem fieldSum_pairUp (w : Nat) :
    ∀ l : List Nat, fieldSum (2 * w) (pairUp w l) = fieldSum w l
  | [] => by simp [pairUp, fieldSum]
  | [a] => by simp [pairUp, fieldSum]
  | a :: b :: t => by
    have ih := fieldSum_pairUp w t
    simp only [pairUp, fieldSum, ih]
    have h2 : (2 : Nat) ^ (2 * w) = 2 ^ w * 2 ^ w := by rw [two_mul, pow_add]
    rw [h2]; ring


theorem pairUp_length (w : Nat) :
    ∀ l : List Nat, (pairUp w l).length = (l.length + 1) / 2
  | [] => by simp [pairUp]
  | [a] => by simp [pairUp]
  | a :: b :: t => by
    have ih := pairUp_length w t
    simp only [pairUp, List.length_cons, ih]
    omega


theorem pairUp_mem_lt (w : Nat) :
    ∀ l : List Nat, (∀ c ∈ l, c < 2 ^ w) → ∀ c ∈ pairUp w l, c < 2 ^ (2 * w)
  | [] => by simp [pairUp]
  | [a] => by
    intro h c hc
    simp only [pairUp, List.mem_singleton] at hc
    subst hc
    exact lt_of_lt_of_le (h _ (by simp)) (Nat.pow_le_pow_right (by norm_num) (by omega))
  | a :: b :: t => by
    intro h c hc
    simp only [pairUp, List.mem_cons] at hc
    rcases hc with rfl | hc
    · have ha := h a (by simp)
      have hb1 : b + 1 ≤ 2 ^ w := h b (by simp)
      have hmul : 2 ^ w * (b + 1) ≤ 2 ^ w * 2 ^ w := Nat.mul_le_mul_left _ hb1
      have hexp : 2 ^ w * (b + 1) = 2 ^ w * b + 2 ^ w := by ring
      have h2 : (2 : Nat) ^ (2 * w) = 2 ^ w * 2 ^ w := by rw [two_mul, pow_add]
      omega
    · exact pairUp_mem_lt w t (fun c hc => h c (by simp [hc])) c hc


theorem stage_split (s n a b : Nat) (ha : a < 2 ^ (2 * s)) :
    stage s (maskP s (n + 1)) (a + 2 ^ (2 * s) * b) =
      stageA s a + 2 ^ (2 * s) * stage s (maskP s n) b := by
  have hss : (2 : Nat) ^ (2 * s) = 2 ^ s * 2 ^ s := by rw [two_mul, pow_add]
  have h1s : (1 : Nat) ≤ 2 ^ s := Nat.one_le_two_pow
  have h1lt : (2 : Nat) ^ s - 1 < 2 ^ s := by omega
  have hlt : (2 : Nat) ^ s - 1 < 2 ^ (2 * s) := by
    have : (2 : Nat) ^ s ≤ 2 ^ (2 * s) := Nat.pow_le_pow_right (by norm_num) (by omega)
    omega
  have hrw : 2 ^ (2 * s) * maskP s n = 2 ^ s * (2 ^ s * maskP s n) := by rw [hss]; ring
  have hmod2s : maskP s (n + 1) % 2 ^ (2 * s) = 2 ^ s - 1 := by
    show (2 ^ s - 1 + 2 ^ (2 * s) * maskP s n) % 2 ^ (2 * s) = 2 ^ s - 1
    rw [Nat.add_mul_mod_self_left, Nat.mod_eq_of_lt hlt]
  have hdiv2s : maskP s (n + 1) / 2 ^ (2 * s) = maskP s n := by
    show (2 ^ s - 1 + 2 ^ (2 * s) * maskP s n) / 2 ^ (2 * s) = maskP s n
    rw [Nat.add_mul_div_left _ _ (Nat.pos_pow_of_pos _ (by norm_num)),
      Nat.div_eq_of_lt hlt, Nat.zero_add]
  have hmods : maskP s (n + 1) % 2 ^ s = 2 ^ s - 1 := by
    show (2 ^ s - 1 + 2 ^ (2 * s) * maskP s n) % 2 ^ s = 2 ^ s - 1
    rw [hrw, Nat.add_mul_mod_self_left, Nat.mod_eq_of_lt h1lt]
  have hdivs : maskP s (n + 1) / 2 ^ s = 2 ^ s * maskP s n := by
    show (2 ^ s - 1 + 2 ^ (2 * s) * maskP s n) / 2 ^ s = 2 ^ s * maskP s n
    rw [hrw, Nat.add_mul_div_left _ _ (Nat.pos_pow_of_pos _ (by norm_num)),
      Nat.div_eq_of_lt h1lt, Nat.zero_add]
  have hT1 : (a + 2 ^ (2 * s) * b) &&& maskP s (n + 1)
      = (a &&& 2 ^ s - 1) + 2 ^ (2 * s) * (b &&& maskP s n) := by
    rw [land_concat a b _ _ ha, hmod2s, hdiv2s]
  have hsub : 2 * s - s = s := by omega
  have hsh : (a + 2 ^ (2 * s) * b) >>> s = a >>> s + 2 ^ s * b := by
    rw [Nat.shiftRight_eq_div_pow, Nat.shiftRight_eq_div_pow,
      add_pow_mul_div_le a b (2 * s) s (by omega), hsub]
  have has : a >>> s < 2 ^ s := by
    rw [Nat.shiftRight_eq_div_pow]
    exact Nat.div_lt_of_lt_mul (by rw [← hss]; exact ha)
  have hT2 : (a + 2 ^ (2 * s) * b) >>> s &&& maskP s (n + 1)
      = (a >>> s &&& 2 ^ s - 1) + 2 ^ (2 * s) * (b >>> s &&& maskP s n) := by
    rw [hsh, land_concat _ b _ s has, hmods, hdivs, land_mul_pow, hss]
    ring
  unfold stage
  rw [hT1, hT2]
  unfold stageA
  ring


theorem stage_fieldSum (s : Nat) :
    ∀ l : List Nat, (∀ c ∈ l, c < 2 ^ (2 * s)) →
      stage s (maskP s l.length) (fieldSum (2 * s) l) = fieldSum (2 * s) (l.map (stageA s))
  | [], _ => by simp [fieldSum, stage, maskP]
  | a :: t, h => by
    have ha : a < 2 ^ (2 * s) := h a (by simp)
    have ih := stage_fieldSum s t (fun c hc => h c (by simp [hc]))
    show stage s (maskP s (t.length + 1)) (a + 2 ^ (2 * s) * fieldSum (2 * s) t)
        = fieldSum (2 * s) (stageA s a :: t.map (stageA s))
    rw [stage_split s t.length a _ ha, ih]
    rfl


theorem stageA_pair (s x y : Nat) (hx : x < 2 ^ s) (hy : y < 2 ^ s) :
    stageA s (x + 2 ^ s * y) = x + y := by
  unfold stageA
  rw [Nat.and_pow_two_sub_one_eq_mod, Nat.add_mul_mod_self_left, Nat.mod_eq_of_lt hx,
    shiftRight_concat_self x y s hx, land_self_of_lt y s hy]


theorem stageA_single (s a : Nat) (ha : a < 2 ^ s) : stageA s a = a := by
  unfold stageA
  rw [land_self_of_lt a s ha, Nat.shiftRight_eq_div_pow, Nat.div_eq_of_lt ha]
  simp


theorem swarStep_sum_bound (s : Nat) :
    ∀ l : List Nat, (∀ c ∈ l, c < 2 ^ s) →
      (∀ c ∈ swarStep s l, c < 2 ^ (s + 1)) ∧ (swarStep s l).sum = l.sum
  | [] => by simp [swarStep, pairUp]
  | [a] => fun h => by
    have ha := h a (by simp)
    have hA := stageA_single s a ha
    constructor
    · intro c hc
      simp only [swarStep, pairUp, List.map_cons, List.map_nil, List.mem_singleton] at hc
      subst hc
      rw [hA]
      exact lt_of_lt_of_le ha (Nat.pow_le_pow_right (by norm_num) (by omega))
    · simp [swarStep, pairUp, hA]
  | a :: b :: t => fun h => by
    have ha := h a (by simp)
    have hb := h b (by simp)
    have ih := swarStep_sum_bound s t (fun c hc => h c (by simp [hc]))
    have hpair := stageA_pair s a b ha hb
    constructor
    · intro c hc
      simp only [swarStep, pairUp, List.map_cons, List.mem_cons] at hc
      rcases hc with rfl | hc
      · rw [hpair]
        have h1 : (2 : Nat) ^ (s + 1) = 2 ^ s + 2 ^ s := by rw [pow_succ]; ring
        omega
      · exact ih.1 c hc
    · have hsum := ih.2
      simp only [swarStep, pairUp, List.map_cons, List.sum_cons, hpair] at hsum ⊢
      omega


theorem swarStep_stage (s : Nat) (l : List Nat) (h : ∀ c ∈ l, c < 2 ^ s) :
    stage s (maskP s (pairUp s l).length) (fieldSum s l) = fieldSum (2 * s) (swarStep s l) := by
  rw [← fieldSum_pairUp s l]
  exact stage_fieldSum s (pairUp s l) (pairUp_mem_lt s l h)


theorem digitsW_length (w : Nat) : ∀ n c, (digitsW w n c).length = n
  | 0, _ => rfl
  | n + 1, c => by simp [digitsW, digitsW_length w n]


theorem digitsW_mem_lt (w : Nat) : ∀ n c, ∀ d ∈ digitsW w n c, d < 2 ^ w
  | 0, c => by simp [digitsW]
  | n + 1, c => by
    intro d hd
    simp only [digitsW, List.mem_cons] at hd
    rcases hd with rfl | hd
    · exact Nat.mod_lt _ (Nat.pos_pow_of_pos _ (by norm_num))
    · exact digitsW_mem_lt w n (c / 2 ^ w) d hd


theorem fieldSum_digitsW (w : Nat) :
    ∀ n c, c < 2 ^ (w * n) → fieldSum w (digitsW w n c) = c
  | 0, c => by
    intro hc
    have : c = 0 := by simpa using hc
    simp [digitsW, fieldSum, this]
  | n + 1, c => by
    intro hc
    have hdl : c / 2 ^ w < 2 ^ (w * n) := by
      apply Nat.div_lt_of_lt_mul
      rw [← pow_add]
      have h : w + w * n = w * (n + 1) := by ring
      rw [h]
      exact hc
    show c % 2 ^ w + 2 ^ w * fieldSum w (digitsW w n (c / 2 ^ w)) = c
    rw [fieldSum_digitsW w n (c / 2 ^ w) hdl]
    exact Nat.mod_add_div c (2 ^ w)


theorem sum_digitsW_one : ∀ n c, c < 2 ^ n → (digitsW 1 n c).sum = countOnes c
  | 0, c => by
    intro hc
    have : c = 0 := by simpa using hc
    simp [digitsW, this, countOnes_zero]
  | n + 1, c => by
    intro hc
    have h2 : (2 : Nat) ^ (n + 1) = 2 * 2 ^ n := by rw [pow_succ']
    have hdl : c / 2 < 2 ^ n := by omega
    show ((c % 2 ^ 1) :: digitsW 1 n (c / 2 ^ 1)).sum = countOnes c
    simp only [pow_one, List.sum_cons]
    rw [sum_digitsW_one n (c / 2) hdl]
    by_cases hz : c = 0
    · simp [hz, countOnes_zero]
    · rw [countOnes_of_pos c hz]


theorem swarChunk_eq_countOnes (c : Nat) (hc : c < 2 ^ 64) : swarChunk c = countOnes c := by
  have hb0 : ∀ d ∈ digitsW 1 64 c, d < 2 ^ 1 := digitsW_mem_lt 1 64 c
  have hfs0 : fieldSum 1 (digitsW 1 64 c) = c := fieldSum_digitsW 1 64 c (by simpa using hc)
  have hlen0 : (digitsW 1 64 c).length = 64 := digitsW_length 1 64 c
  obtain ⟨hb1, hs1⟩ := swarStep_sum_bound 1 (digitsW 1 64 c) hb0
  obtain ⟨hb2, hs2⟩ := swarStep_sum_bound 2 (swarStep 1 (digitsW 1 64 c)) hb1
  have hb2w : ∀ d ∈ swarStep 2 (swarStep 1 (digitsW 1 64 c)), d < 2 ^ 4 :=
    fun d hd => lt_of_lt_of_le (hb2 d hd) (by norm_num)
  obtain ⟨hb3, hs3⟩ := swarStep_sum_bound 4 _ hb2w
  have hb3w : ∀ d ∈ swarStep 4 (swarStep 2 (swarStep 1 (digitsW 1 64 c))), d < 2 ^ 8 :=
    fun d hd => lt_of_lt_of_le (hb3 d hd) (by norm_num)
  obtain ⟨hb4, hs4⟩ := swarStep_sum_bound 8 _ hb3w
  have hb4w : ∀ d ∈ swarStep 8 (swarStep 4 (swarStep 2 (swarStep 1 (digitsW 1 64 c)))),
      d < 2 ^ 16 :=
    fun d hd => lt_of_lt_of_le (hb4 d hd) (by norm_num)
  obtain ⟨hb5, hs5⟩ := swarStep_sum_bound 16 _ hb4w
  have hb5w : ∀ d ∈ swarStep 16 (swarStep 8 (swarStep 4 (swarStep 2 (swarStep 1
      (digitsW 1 64 c))))), d < 2 ^ 32 :=
    fun d hd => lt_of_lt_of_le (hb5 d hd) (by norm_num)
  obtain ⟨hb6, hs6⟩ := swarStep_sum_bound 32 _ hb5w
  have hlen1 : (swarStep 1 (digitsW 1 64 c)).length = 32 := by
    show ((pairUp 1 _).map _).length = 32
    rw [List.length_map, pairUp_length, hlen0]
  have hlen2 : (swarStep 2 (swarStep 1 (digitsW 1 64 c))).length = 16 := by
    show ((pairUp 2 _).map _).length = 16
    rw [List.length_map, pairUp_length, hlen1]
  have hlen3 : (swarStep 4 (swarStep 2 (swarStep 1 (digitsW 1 64 c)))).length = 8 := by
    show ((pairUp 4 _).map _).length = 8
    rw [List.length_map, pairUp_length, hlen2]
  have hlen4 : (swarStep 8 (swarStep 4 (swarStep 2 (swarStep 1
      (digitsW 1 64 c))))).length = 4 := by
    show ((pairUp 8 _).map _).length = 4
    rw [List.length_map, pairUp_length, hlen3]
  have hlen5 : (swarStep 16 (swarStep 8 (swarStep 4 (swarStep 2 (swarStep 1
      (digitsW 1 64 c)))))).length = 2 := by
    show ((pairUp 16 _).map _).length = 2
    rw [List.length_map, pairUp_length, hlen4]
  have hlen6 : (swarStep 32 (swarStep 16 (swarStep 8 (swarStep 4 (swarStep 2 (swarStep 1
      (digitsW 1 64 c))))))).length = 1 := by
    show ((pairUp 32 _).map _).length = 1
    rw [List.length_map, pairUp_length, hlen5]
  have hm1 : maskP 1 (pairUp 1 (digitsW 1 64 c)).length = 0x5555555555555555 := by
    rw [pairUp_length, hlen0]; decide
  have hm2 : maskP 2 (pairUp 2 (swarStep 1 (digitsW 1 64 c))).length
      = 0x3333333333333333 := by
    rw [pairUp_length, hlen1]; decide
  have hm3 : maskP 4 (pairUp 4 (swarStep 2 (swarStep 1 (digitsW 1 64 c)))).length
      = 0x0F0F0F0F0F0F0F0F := by
    rw [pairUp_length, hlen2]; decide
  have hm4 : maskP 8 (pairUp 8 (swarStep 4 (swarStep 2 (swarStep 1
      (digitsW 1 64 c))))).length = 0x00FF00FF00FF00FF := by
    rw [pairUp_length, hlen3]; decide
  have hm5 : maskP 16 (pairUp 16 (swarStep 8 (swarStep 4 (swarStep 2 (swarStep 1
      (digitsW 1 64 c)))))).length = 0x0000FFFF0000FFFF := by
    rw [pairUp_length, hlen4]; decide
  have hm6 : maskP 32 (pairUp 32 (swarStep 16 (swarStep 8 (swarStep 4 (swarStep 2
      (swarStep 1 (digitsW 1 64 c))))))).length = 0x00000000FFFFFFFF := by
    rw [pairUp_length, hlen5]; decide
  have e1 := swarStep_stage 1 (digitsW 1 64 c) hb0
  have e2 := swarStep_stage 2 (swarStep 1 (digitsW 1 64 c)) hb1
  have e3 := swarStep_stage 4 (swarStep 2 (swarStep 1 (digitsW 1 64 c))) hb2w
  have e4 := swarStep_stage 8 (swarStep 4 (swarStep 2 (swarStep 1 (digitsW 1 64 c)))) hb3w
  have e5 := swarStep_stage 16 (swarStep 8 (swarStep 4 (swarStep 2 (swarStep 1
    (digitsW 1 64 c))))) hb4w
  have e6 := swarStep_stage 32 (swarStep 16 (swarStep 8 (swarStep 4 (swarStep 2 (swarStep 1
    (digitsW 1 64 c)))))) hb5w
  have hsum : (swarStep 32 (swarStep 16 (swarStep 8 (swarStep 4 (swarStep 2 (swarStep 1
      (digitsW 1 64 c))))))).sum = countOnes c := by
    rw [hs6, hs5, hs4, hs3, hs2, hs1, sum_digitsW_one 64 c hc]
  obtain ⟨x, hx⟩ := List.length_eq_one.mp hlen6
  show stage 32 0x00000000FFFFFFFF (stage 16 0x0000FFFF0000FFFF (stage 8 0x00FF00FF00FF00FF
    (stage 4 0x0F0F0F0F0F0F0F0F (stage 2 0x3333333333333333
      (stage 1 0x5555555555555555 c))))) = countOnes c
  conv_lhs =>
    rw [← hfs0, ← hm1, e1, ← hm2, e2, ← hm3, e3, ← hm4, e4, ← hm5, e5, ← hm6, e6]
  rw [hx] at hsum ⊢
  simp only [fieldSum, List.sum_cons, List.sum_nil] at hsum ⊢
  omega


/-- Every application of the chunked SWAR loop with sufficient fuel computes
the exact bit count. -/
theorem swarLoop_eq_countOnes : ∀ f v : Nat, v < 2 ^ (64 * f) → swarLoop f v = countOnes v
  | 0, v => by
    intro hv
    have : v = 0 := by simpa using hv
    simp [swarLoop, this, countOnes_zero]
  | f + 1, v => by
    intro hv
    show (if v = 0 then 0 else swarChunk (v &&& 0xFFFFFFFFFFFFFFFF) + swarLoop f (v >>> 64))
        = countOnes v
    by_cases hz : v = 0
    · simp [hz, countOnes_zero]
    · simp only [hz, if_false]
      have hmask : v &&& 0xFFFFFFFFFFFFFFFF = v % 2 ^ 64 := by
        have h64 : (0xFFFFFFFFFFFFFFFF : Nat) = 2 ^ 64 - 1 := by norm_num
        rw [h64, Nat.and_pow_two_sub_one_eq_mod]
      have hdiv : v >>> 64 = v / 2 ^ 64 := Nat.shiftRight_eq_div_pow v 64
      have hrec : v / 2 ^ 64 < 2 ^ (64 * f) := by
        apply Nat.div_lt_of_lt_mul
        rw [← pow_add]
        have h : 64 + 64 * f = 64 * (f + 1) := by ring
        rw [h]
        exact hv
      rw [hmask, hdiv, swarChunk_eq_countOnes _ (Nat.mod_lt _ (by norm_num)),
        swarLoop_eq_countOnes f (v / 2 ^ 64) hrec]
      conv_rhs => rw [← Nat.mod_add_div v (2 ^ 64)]
      rw [countOnes_concat 64 (v % 2 ^ 64) (v / 2 ^ 64) (Nat.mod_lt _ (by norm_num))]


theorem lor_two_pow_of_lt (a k : Nat) (ha : a < 2 ^ k) : a ||| 2 ^ k = a + 2 ^ k := by
  have h := lor_concat a 0 (2 ^ k) k ha
  simpa using h


theorem propLoop_fst (size : Nat) : ∀ n, (propLoop size n).1 = 2 ^ n - 1
  | 0 => rfl
  | n + 1 => by
    show (propLoop size n).1 ||| 1 <<< n = 2 ^ (n + 1) - 1
    have h1 : (1 : Nat) ≤ 2 ^ n := Nat.one_le_two_pow
    have h2 : (2 : Nat) ^ (n + 1) = 2 * 2 ^ n := by rw [pow_succ']
    rw [propLoop_fst size n, Nat.shiftLeft_eq, one_mul,
      lor_two_pow_of_lt _ n (by omega)]
    omega


/-- `mask` is the all-ones pattern over the `size*size` cells. -/
theorem boardMask_eq (size : Nat) : boardMask size = 2 ^ (size * size) - 1 :=
  propLoop_fst size (size * size)


/-! ## Popcount correctness (C3) -/

theorem mkBitboard_bits_lt (size bits : Nat) :
    (mkBitboard size bits).bits < 2 ^ (size * size) := by
  show bits &&& boardMask size < 2 ^ (size * size)
  have h1 : bits &&& boardMask size ≤ boardMask size := Nat.and_le_right
  have h2 : (1 : Nat) ≤ 2 ^ (size * size) := Nat.one_le_two_pow
  rw [boardMask_eq] at h1 ⊢
  omega


theorem popcount_eq_countOnes (bb : Bitboard) (h : bb.bits < 2 ^ (bb.size * bb.size)) :
    bb.popcount = countOnes bb.bits :=
  swarLoop_eq_countOnes _ _
    (lt_of_lt_of_le h (Nat.pow_le_pow_right (by norm_num) (by omega)))


/-- C3: for every board size in {6,8,10,12} and every value fitting the
`size*size` bit width, `Bitboard.popcount` equals the number of 1-bits of
the value's binary representation — the chunked 64-bit SWAR algorithm is
exact beyond one machine word. -/
theorem popcount_counts_bits (size v : Nat)
    (hsize : size = 6 ∨ size = 8 ∨ size = 10 ∨ size = 12)
    (hv : v < 2 ^ (size * size)) :
    (Bitboard.mk size v).popcount = countOnes v :=
  popcount_eq_countOnes ⟨size, v⟩ hv


/-- Witness for C3 at size 12 with a 144-bit all-ones value (three SWAR
chunks). -/
theorem popcount_counts_bits_witness :
    (12 = 6 ∨ 12 = 8 ∨ 12 = 10 ∨ 12 = 12) ∧ 2 ^ 144 - 1 < 2 ^ (12 * 12) ∧
      (Bitboard.mk 12 (2 ^ 144 - 1)).popcount = countOnes (2 ^ 144 - 1) :=
  ⟨by norm_num, by norm_num,
    popcount_counts_bits 12 (2 ^ 144 - 1) (by norm_num) (by norm_num)⟩


/-! ## Bitboard set/get (C7) -/

theorem testBit_one_shiftLeft (n i : Nat) :
    (1 <<< n).testBit i = decide (i = n) := by
  rw [Nat.one_shiftLeft]
  by_cases h : i = n
  · subst h; simp [Nat.testBit_two_pow_self]
  · simp [h, Nat.testBit_two_pow_of_ne (fun hn => h hn.symm)]


/-- C7 (amended): within bounds, `get` after `set(x,y,true)` is truthy and
`get` after `set(x,y,false)` is falsy; and `set`/`get` raise the
out-of-bounds `IndexError` exactly when the flat bit index `y*size + x`
falls outside `[0, size*size)` (the source checks the flat index, not the
coordinates). -/
theorem bitboard_set_get_spec (bb : Bitboard) (x y : Int) (v : Bool) :
    (0 ≤ y * (bb.size : Int) + x ∧ y * (bb.size : Int) + x < (bb.size : Int) * bb.size →
      (∃ b1, bb.set x y true = .ok b1 ∧ ∃ r, b1.get x y = .ok r ∧ r ≠ 0) ∧
      (∃ b0, bb.set x y false = .ok b0 ∧ b0.get x y = .ok 0)) ∧
    (¬(0 ≤ y * (bb.size : Int) + x ∧ y * (bb.size : Int) + x < (bb.size : Int) * bb.size) →
      bb.get x y = .error .indexError ∧ bb.set x y v = .error .indexError) := by
  constructor
  · intro hidx
    have hn : (y * (bb.size : Int) + x).toNat < bb.size * bb.size := by omega
    constructor
    · refine ⟨⟨bb.size, bb.bits ||| 1 <<< (y * (bb.size : Int) + x).toNat⟩, ?_, ?_⟩
      · simp [Bitboard.set, if_pos hidx]
      · refine ⟨(bb.bits ||| 1 <<< (y * (bb.size : Int) + x).toNat) &&&
          1 <<< (y * (bb.size : Int) + x).toNat, ?_, ?_⟩
        · simp only [Bitboard.get]
          rw [if_pos]
          exact hidx
        · intro h0
          have hbit := congrArg (fun t => Nat.testBit t (y * (bb.size : Int) + x).toNat) h0
          simp only [Nat.testBit_land, Nat.testBit_lor, testBit_one_shiftLeft,
            Nat.zero_testBit, decide_eq_true rfl, Bool.or_true, Bool.and_self] at hbit
          simp at hbit
    · refine ⟨⟨bb.size, bb.bits &&& (boardMask bb.size ^^^
        1 <<< (y * (bb.size : Int) + x).toNat)⟩, ?_, ?_⟩
      · simp [Bitboard.set, if_pos hidx]
      · simp only [Bitboard.get]
        rw [if_pos hidx]
        congr 1
        apply Nat.eq_of_testBit_eq
        intro i
        simp only [Nat.testBit_land, Nat.testBit_xor, testBit_one_shiftLeft, Nat.zero_testBit]
        have hm : (boardMask bb.size).testBit ((y * (bb.size : Int) + x).toNat) = true := by
          rw [boardMask_eq, Nat.testBit_two_pow_sub_one]
          exact decide_eq_true hn
        by_cases hi : i = (y * (bb.size : Int) + x).toNat
        · subst hi
          simp [hm]
        · simp [hi]
  · intro hidx
    constructor
    · simp only [Bitboard.get, if_neg hidx]
    · simp only [Bitboard.set, if_neg hidx]


/-- Witness for C7 on an 8×8 bitboard at `(3, 2)` (in range) and `(-1, 0)`
(flat index −1, out of range). -/
theorem bitboard_set_get_spec_witness :
    ((∃ b1, (mkBitboard 8 0).set 3 2 true = .ok b1 ∧ ∃ r, b1.get 3 2 = .ok r ∧ r ≠ 0) ∧
      (∃ b0, (mkBitboard 8 0).set 3 2 false = .ok b0 ∧ b0.get 3 2 = .ok 0)) ∧
    ((mkBitboard 8 0).get (-1) 0 = .error .indexError ∧
      (mkBitboard 8 0).set (-1) 0 true = .error .indexError) :=
  ⟨(bitboard_set_get_spec (mkBitboard 8 0) 3 2 true).1 (by decide),
    (bitboard_set_get_spec (mkBitboard 8 0) (-1) 0 true).2 (by decide)⟩


/-- Counterexample to C7 as stated: `x = 8` lies outside `[0, 8)`, yet
`get(8, 0)` on an 8×8 bitboard does not raise — the flat index is 8, which
is in range (it denotes cell `(0, 1)`). -/
theorem bitboard_get_wraps_cex : (mkBitboard 8 0).get 8 0 = .ok 0 := rfl


/-! ## play then pop (C1) and error atomicity (C10) -/

/-- C1: playing any legal move `(x, y)` on any state and then popping
restores the exact prior `(black.bits, white.bits, current_player)` triple
(and the history), whether or not the move triggered an automatic pass
entry, which `pop` undoes together with the move. -/
theorem play_pop_restores (st : GameState) (x y : Int)
    (hx : 0 ≤ x) (hx2 : x < (st.size : Int)) (hy : 0 ≤ y) (hy2 : y < (st.size : Int))
    (hlegal : (lineCapMove st st.current).bits &&& 1 <<< (y * (st.size : Int) + x).toNat ≠ 0) :
    (play st x y).2 = none ∧ (pop (play st x y).1).2 = none ∧
      (pop (play st x y).1).1.black = st.black ∧
      (pop (play st x y).1).1.white = st.white ∧
      (pop (play st x y).1).1.current = st.current ∧
      (pop (play st x y).1).1.history = st.history := by
  have hne : ¬(x = -1 ∧ y = -1) := by omega
  have hidx0 : 0 ≤ y * (st.size : Int) + x := by
    have := mul_nonneg hy (by omega : (0 : Int) ≤ st.size)
    omega
  have hidx1 : y * (st.size : Int) + x < (st.size : Int) * st.size := by
    have h1 : y * (st.size : Int) ≤ ((st.size : Int) - 1) * st.size :=
      mul_le_mul_of_nonneg_right (by omega) (by omega)
    have h2 : ((st.size : Int) - 1) * st.size = (st.size : Int) * st.size - st.size := by
      ring
    omega
  simp only [play]
  rw [if_neg hne, if_neg (not_not_intro ⟨hidx0, hidx1⟩), if_pos hlegal]
  split_ifs <;> simp [pop, hne]


/-- Witness for C1: the 8×8 opening move d3 = `(3, 2)`. -/
theorem play_pop_restores_witness :
    (play (initState 8) 3 2).2 = none ∧ (pop (play (initState 8) 3 2).1).2 = none ∧
      (pop (play (initState 8) 3 2).1).1.black = (initState 8).black ∧
      (pop (play (initState 8) 3 2).1).1.white = (initState 8).white ∧
      (pop (play (initState 8) 3 2).1).1.current = (initState 8).current ∧
      (pop (play (initState 8) 3 2).1).1.history = (initState 8).history :=
  play_pop_restores (initState 8) 3 2 (by decide) (by decide) (by decide) (by decide)
    (by decide)


/-- C10 (amended): for `(x, y) ≠ (-1, -1)` whose flat bit index
`y*size + x` is a valid board index but whose bit is not set in the current
player's legal-move mask, `play` raises `IllegalMoveException` and returns
the state exactly as it was: no board, player, or history mutation has
happened (the source raises before assigning anything). -/
theorem play_illegal_atomic (st : GameState) (x y : Int)
    (hne : ¬(x = -1 ∧ y = -1))
    (hidx : 0 ≤ y * (st.size : Int) + x ∧ y * (st.size : Int) + x < (st.size : Int) * st.size)
    (hbit : (lineCapMove st st.current).bits &&& 1 <<< (y * (st.size : Int) + x).toNat = 0) :
    play st x y = (st, some PyErr.illegalMove) := by
  simp only [play]
  rw [if_neg hne, if_neg (not_not_intro hidx), if_neg (by simp [hbit])]


/-- Witness for C10's amended statement: `(0, 0)` is on the 8×8 board but
not a legal opening move. -/
theorem play_illegal_atomic_witness :
    play (initState 8) 0 0 = (initState 8, some PyErr.illegalMove) :=
  play_illegal_atomic (initState 8) 0 0 (by decide) (by decide) (by decide)


/-- Counterexample to C10 as stated: `(x, y) = (-2, 0)` is not `(-1, -1)`
and its destination bit is certainly not set in any legal-move mask, yet
`play` raises `IndexError` (from `move_mask.set`), not
`IllegalMoveException`. -/
theorem play_out_of_range_cex :
    (play (initState 8) (-2) 0).2 = some PyErr.indexError ∧
      (play (initState 8) (-2) 0).2 ≠ some PyErr.illegalMove := by
  constructor
  · rfl
  · intro h
    simp only [play] at h
    revert h
    decide


theorem cap_disjoint (p o c mask : Nat) (h : p &&& o = 0) :
    ((p ||| c) &&& mask) &&& ((o &&& (mask ^^^ c &&& mask)) &&& mask) = 0 := by
  apply Nat.eq_of_testBit_eq
  intro i
  have hpo : (p &&& o).testBit i = false := by rw [h]; exact Nat.zero_testBit i
  rw [Nat.testBit_land] at hpo
  simp only [Nat.testBit_land, Nat.testBit_lor, Nat.testBit_xor, Nat.zero_testBit]
  cases hp : p.testBit i <;> cases ho : o.testBit i <;> cases hc : c.testBit i <;>
    cases hm : mask.testBit i <;> simp_all


theorem disjoint_initState (size : Nat)
    (hs : size = 6 ∨ size = 8 ∨ size = 10 ∨ size = 12) :
    DisjointState (initState size) := by
  rcases hs with rfl | rfl | rfl | rfl <;> exact ⟨by decide, by decide⟩



theorem play_preserves_disjoint (st : GameState) (x y : Int) (h : DisjointState st) :
    DisjointState (play st x y).1 := by
  obtain ⟨hbw, hhist⟩ := h
  have hkey1 : ((st.black.bits ||| (lineCap st x y st.current).bits) &&& boardMask st.size) &&&
      ((st.white.bits &&&
        (boardMask st.size ^^^ (lineCap st x y st.current).bits &&& boardMask st.size)) &&&
        boardMask st.size) = 0 :=
    cap_disjoint _ _ _ _ hbw
  have hkey2 : ((st.black.bits &&&
        (boardMask st.size ^^^ (lineCap st x y st.current).bits &&& boardMask st.size)) &&&
        boardMask st.size) &&&
      ((st.white.bits ||| (lineCap st x y st.current).bits) &&& boardMask st.size) = 0 := by
    rw [Nat.land_comm]
    exact cap_disjoint _ _ _ _ (by rw [Nat.land_comm]; exact hbw)
  simp only [play]
  split_ifs with h1 h2 h3 h4 h5 h6
  · exact ⟨hbw, by
      intro e he
      rcases List.mem_cons.mp he with rfl | he2
      · exact hbw
      · exact hhist e he2⟩
  · refine ⟨hkey1, ?_⟩
    intro e he
    rcases List.mem_cons.mp he with rfl | he2
    · exact hkey1
    · rcases List.mem_cons.mp he2 with rfl | he3
      · exact hbw
      · exact hhist e he3
  · refine ⟨hkey1, ?_⟩
    intro e he
    rcases List.mem_cons.mp he with rfl | he2
    · exact hbw
    · exact hhist e he2
  · refine ⟨hkey2, ?_⟩
    intro e he
    rcases List.mem_cons.mp he with rfl | he2
    · exact hkey2
    · rcases List.mem_cons.mp he2 with rfl | he3
      · exact hbw
      · exact hhist e he3
  · refine ⟨hkey2, ?_⟩
    intro e he
    rcases List.mem_cons.mp he with rfl | he2
    · exact hbw
    · exact hhist e he2
  · exact ⟨hbw, hhist⟩
  · exact ⟨hbw, hhist⟩


theorem pop_preserves_disjoint (st : GameState) (h : DisjointState st) :
    DisjointState (pop st).1 := by
  obtain ⟨hbw, hhist⟩ := h
  cases hm : st.history with
  | nil =>
    simp only [pop, hm]
    exact ⟨hbw, hhist⟩
  | cons e rest =>
    rw [hm] at hhist
    simp only [pop, hm]
    split_ifs with h1
    · cases rest with
      | nil => exact ⟨hbw, by intro e2 he2; simp at he2⟩
      | cons e2 rest2 =>
        refine ⟨hhist e2 (List.mem_cons_of_mem _ (List.mem_cons_self _ _)), ?_⟩
        intro e3 he3
        exact hhist e3 (List.mem_cons_of_mem _ (List.mem_cons_of_mem _ he3))
    · refine ⟨hhist e (List.mem_cons_self _ _), ?_⟩
      intro e3 he3
      exact hhist e3 (List.mem_cons_of_mem _ he3)


theorem reachable_disjointState (st : GameState) (h : Reachable st) : DisjointState st := by
  induction h with
  | init size hs => exact disjoint_initState size hs
  | playStep st x y _ ih => exact play_preserves_disjoint st x y ih
  | popStep st _ ih => exact pop_preserves_disjoint st ih


/-- C8: in every reachable game state — the initial position and anything
produced by `play` and `pop` calls — the black and white bitboards are
disjoint: `black.bits &&& white.bits = 0`. -/
theorem reachable_black_white_disjoint (st : GameState) (h : Reachable st) :
    st.black.bits &&& st.white.bits = 0 :=
  (reachable_disjointState st h).1


/-- Witness for C8: the initial 8×8 position. -/
theorem reachable_black_white_disjoint_witness :
    (initState 8).black.bits &&& (initState 8).white.bits = 0 :=
  reachable_black_white_disjoint (initState 8) (Reachable.init 8 (by norm_num))


/-! ## Game-over test (C9) -/

theorem lineCapMove_popcount_zero_iff (st : GameState) (c : Color) :
    (lineCapMove st c).popcount = 0 ↔ (lineCapMove st c).bits = 0 := by
  have hb : (lineCapMove st c).bits <
      2 ^ ((lineCapMove st c).size * (lineCapMove st c).size) :=
    mkBitboard_bits_lt _ _
  rw [popcount_eq_countOnes _ hb, countOnes_eq_zero_iff]


/-- C9: `is_game_over()` is true iff `forced_game_over` is set or both
colors simultaneously have an empty legal-move mask (for a game state whose
side to move is an actual player, as in every reachable state). -/
theorem is_game_over_iff (st : GameState)
    (hc : st.current = Color.BLACK ∨ st.current = Color.WHITE) :
    isGameOver st = true ↔
      (st.forced = true ∨
        ((lineCapMove st Color.BLACK).bits = 0 ∧ (lineCapMove st Color.WHITE).bits = 0)) := by
  unfold isGameOver
  rcases hc with hcb | hcw
  · rw [hcb]
    show (st.forced || (decide ((lineCapMove st Color.BLACK).popcount = 0) &&
      decide ((lineCapMove st Color.BLACK.invert).popcount = 0))) = true ↔ _
    simp only [Color.invert, Bool.or_eq_true, Bool.and_eq_true, decide_eq_true_eq,
      lineCapMove_popcount_zero_iff]
  · rw [hcw]
    show (st.forced || (decide ((lineCapMove st Color.WHITE).popcount = 0) &&
      decide ((lineCapMove st Color.WHITE.invert).popcount = 0))) = true ↔ _
    simp only [Color.invert, Bool.or_eq_true, Bool.and_eq_true, decide_eq_true_eq,
      lineCapMove_popcount_zero_iff]
    tauto


/-- Witness for C9 at the initial 8×8 position (game not over: Black has
four legal moves). -/
theorem is_game_over_iff_witness :
    isGameOver (initState 8) = true ↔
      ((initState 8).forced = true ∨
        ((lineCapMove (initState 8) Color.BLACK).bits = 0 ∧
          (lineCapMove (initState 8) Color.WHITE).bits = 0)) :=
  is_game_over_iff (initState 8) (Or.inl rfl)


/-! ## The mobility heuristic bug (C4) -/

/-- C4 is false of the code: on `boardOneMove` Black has exactly one legal
move and White none, so the claimed formula gives
`round(100*(1-0)/(1+0)) = 100`, but `mobility_heuristic` returns `0` for
both colors — `line_cap_move(board.black)` passes a Bitboard where a Color
is expected, so both move counts are computed for the same player and the
difference is always zero. -/
theorem mobility_heuristic_bug :
    (lineCapMove boardOneMove Color.BLACK).popcount = 1 ∧
      (lineCapMove boardOneMove Color.WHITE).popcount = 0 ∧
      mobilityHeuristic boardOneMove Color.BLACK = 0 ∧
      mobilityHeuristic boardOneMove Color.WHITE = 0 := by
  refine ⟨by decide, by decide, by decide, by decide⟩


/-! ## The coin-parity division by zero (C5) -/

/-- C5 is false of the code: on a board with no discs
`coin_parity_heuristic` raises `ZeroDivisionError` for both colors instead
of returning 0. -/
theorem coin_parity_zero_division :
    coinParityHeuristicE boardNoDiscs Color.BLACK = .error .zeroDivision ∧
      coinParityHeuristicE boardNoDiscs Color.WHITE = .error .zeroDivision := by
  constructor <;> rfl


theorem KM_refl (v a b : Ext) : KM v v a b :=
  ⟨fun _ => le_rfl, fun _ => le_rfl, fun _ _ => rfl⟩


theorem pyInt_eq (e : Ext) : pyInt e = e := rfl


theorem foldl_max_ge (g : Nat × Nat → Ext) :
    ∀ (l : List (Nat × Nat)) (ev : Ext), ev ≤ l.foldl (fun e m => max e (g m)) ev
  | [], _ => le_rfl
  | m :: ms, ev => le_trans (le_max_left _ _) (foldl_max_ge g ms (max ev (g m)))


theorem foldl_min_le (g : Nat × Nat → Ext) :
    ∀ (l : List (Nat × Nat)) (ev : Ext), l.foldl (fun e m => min e (g m)) ev ≤ ev
  | [], _ => le_rfl
  | m :: ms, ev => le_trans (foldl_min_le g ms (min ev (g m))) (min_le_left _ _)


theorem abFoldMax_KM (f : Nat × Nat → Ext → Ext → Ext) (g : Nat × Nat → Ext)
    (b a0 : Ext)
    (hf : ∀ m a2 b2, a2 < b2 → KM (f m a2 b2) (g m) a2 b2) :
    ∀ (ms : List (Nat × Nat)) (a ev evm : Ext),
      a = max a0 ev → a < b → evm ≤ a → (ev ≤ a0 → evm ≤ ev) → (a0 < ev → ev ≤ evm) →
      KM (abFoldMax f b ms a ev) (ms.foldl (fun e m => max e (g m)) evm) a0 b := by
  intro ms
  induction ms with
  | nil =>
    intro a ev evm hI1 hI2 hI3 hI4 hI5
    have heva : ev ≤ a := hI1 ▸ le_max_right a0 ev
    refine ⟨fun hle => hI4 hle, ?_, ?_⟩
    · intro hge
      exact absurd (lt_of_lt_of_le hI2 hge) (not_lt.mpr heva)
    · intro hlt _
      have hmax : max a0 ev = ev := max_eq_right (le_of_lt hlt)
      have hevm : evm ≤ ev := by rw [hI1, hmax] at hI3; exact hI3
      show ev = evm
      exact le_antisymm (hI5 hlt) hevm
  | cons m ms ih =>
    intro a ev evm hI1 hI2 hI3 hI4 hI5
    have ha0a : a0 ≤ a := hI1 ▸ le_max_left a0 ev
    have heva : ev ≤ a := hI1 ▸ le_max_right a0 ev
    obtain ⟨kmlow, kmhigh, kmexact⟩ := hf m a b hI2
    simp only [abFoldMax, pyInt_eq, List.foldl_cons]
    by_cases hbr : b ≤ max a (max ev (f m a b))
    · rw [if_pos hbr]
      -- break: the last child failed high
      have hbev2 : b ≤ max ev (f m a b) := by
        rcases le_max_iff.mp hbr with hca | hc
        · exact absurd hca (not_le.mpr hI2)
        · exact hc
      have hbs : b ≤ f m a b := by
        rcases le_max_iff.mp hbev2 with hce | hc
        · exact absurd (lt_of_lt_of_le hI2 hce) (not_lt.mpr heva)
        · exact hc
      have hsv : f m a b ≤ g m := kmhigh hbs
      have hgv : g m ≤ ms.foldl (fun e m => max e (g m)) (max evm (g m)) :=
        le_trans (le_max_right evm (g m)) (foldl_max_ge g ms _)
      have hevv : ev ≤ ms.foldl (fun e m => max e (g m)) (max evm (g m)) := by
        rcases le_or_lt ev a0 with hc | hc
        · exact le_trans hc (le_trans ha0a (le_trans (le_of_lt hI2)
            (le_trans hbs (le_trans hsv hgv))))
        · exact le_trans (hI5 hc) (le_trans (le_max_left evm (g m)) (foldl_max_ge g ms _))
      refine ⟨?_, ?_, ?_⟩
      · intro hle
        have : b ≤ a0 := le_trans hbev2 hle
        exact absurd (lt_of_le_of_lt this (lt_of_le_of_lt ha0a hI2)) (lt_irrefl b)
      · intro _
        exact max_le hevv (le_trans hsv hgv)
      · intro _ hltb
        exact absurd (lt_of_le_of_lt hbev2 hltb) (lt_irrefl b)
    · rw [if_neg hbr]
      have hI2n : max a (max ev (f m a b)) < b := not_le.mp hbr
      have hsb : f m a b < b :=
        lt_of_le_of_lt (le_trans (le_max_right ev _) (le_max_right a _)) hI2n
      have hI1n : max a (max ev (f m a b)) = max a0 (max ev (f m a b)) := by
        rw [hI1, max_assoc]
        congr 1
        rw [← max_assoc, max_self]
      have hgm_le : g m ≤ max a (max ev (f m a b)) := by
        rcases lt_or_le a (f m a b) with has | hsa
        · rw [← kmexact has hsb]
          exact le_trans (le_max_right ev _) (le_max_right a _)
        · exact le_trans (kmlow hsa) (le_trans (le_max_right ev _) (le_max_right a _))
      have hI3n : max evm (g m) ≤ max a (max ev (f m a b)) :=
        max_le (le_trans hI3 (le_max_left a _)) hgm_le
      have hI4n : max ev (f m a b) ≤ a0 → max evm (g m) ≤ max ev (f m a b) := by
        intro hle
        have hev_le : ev ≤ a0 := le_trans (le_max_left ev _) hle
        have hs_le : f m a b ≤ a := le_trans (le_trans (le_max_right ev _) hle) ha0a
        exact max_le (le_trans (hI4 hev_le) (le_max_left ev _))
          (le_trans (kmlow hs_le) (le_max_right ev _))
      have hI5n : a0 < max ev (f m a b) → max ev (f m a b) ≤ max evm (g m) := by
        intro hlt
        rcases le_total (f m a b) ev with hse | hes
        · rw [max_eq_left hse]
          rw [max_eq_left hse] at hlt
          exact le_trans (hI5 hlt) (le_max_left evm _)
        · rw [max_eq_right hes]
          rw [max_eq_right hes] at hlt
          rcases lt_or_le a (f m a b) with has | hsa
          · rw [← kmexact has hsb]
            exact le_max_right evm _
          · have hsev : f m a b ≤ ev := by
              have hsa2 : f m a b ≤ max a0 ev := le_trans hsa (le_of_eq hI1)
              rcases le_max_iff.mp hsa2 with hc | hc
              · exact absurd (lt_of_lt_of_le hlt hc) (lt_irrefl _)
              · exact hc
            have hevs : ev = f m a b := le_antisymm hes hsev
            rw [← hevs]
            rw [← hevs] at hlt
            exact le_trans (hI5 hlt) (le_max_left evm _)
      exact ih (max a (max ev (f m a b))) (max ev (f m a b)) (max evm (g m))
        hI1n hI2n hI3n hI4n hI5n


theorem abFoldMin_KM (f : Nat × Nat → Ext → Ext → Ext) (g : Nat × Nat → Ext)
    (a b0 : Ext)
    (hf : ∀ m a2 b2, a2 < b2 → KM (f m a2 b2) (g m) a2 b2) :
    ∀ (ms : List (Nat × Nat)) (b ev evm : Ext),
      b = min b0 ev → a < b → b ≤ evm → (b0 ≤ ev → ev ≤ evm) → (ev < b0 → evm ≤ ev) →
      KM (abFoldMin f a ms b ev) (ms.foldl (fun e m => min e (g m)) evm) a b0 := by
  intro ms
  induction ms with
  | nil =>
    intro b ev evm hI1 hI2 hI3 hI4 hI5
    have hevb : b ≤ ev := hI1 ▸ min_le_right b0 ev
    refine ⟨?_, fun hge => hI4 hge, ?_⟩
    · intro hle
      exact absurd (lt_of_lt_of_le hI2 (le_trans hevb hle)) (lt_irrefl a)
    · intro _ hlt2
      have hmin : min b0 ev = ev := min_eq_right (le_of_lt hlt2)
      have hevm : ev ≤ evm := by rw [hI1, hmin] at hI3; exact hI3
      show ev = evm
      exact le_antisymm hevm (hI5 hlt2)
  | cons m ms ih =>
    intro b ev evm hI1 hI2 hI3 hI4 hI5
    have hbb0 : b ≤ b0 := hI1 ▸ min_le_left b0 ev
    have hevb : b ≤ ev := hI1 ▸ min_le_right b0 ev
    obtain ⟨kmlow, kmhigh, kmexact⟩ := hf m a b hI2
    simp only [abFoldMin, pyInt_eq, List.foldl_cons]
    by_cases hbr : min b (min ev (f m a b)) ≤ a
    · rw [if_pos hbr]
      have hbev2 : min ev (f m a b) ≤ a := by
        rcases min_le_iff.mp hbr with hc | hc
        · exact absurd hc (not_le.mpr hI2)
        · exact hc
      have hbs : f m a b ≤ a := by
        rcases min_le_iff.mp hbev2 with hc | hc
        · exact absurd (lt_of_lt_of_le hI2 (le_trans hevb hc)) (lt_irrefl a)
        · exact hc
      have hsv : g m ≤ f m a b := kmlow hbs
      have hgv : ms.foldl (fun e m => min e (g m)) (min evm (g m)) ≤ g m :=
        le_trans (foldl_min_le g ms _) (min_le_right evm (g m))
      have hevv : ms.foldl (fun e m => min e (g m)) (min evm (g m)) ≤ ev :=
        le_trans hgv (le_trans hsv (le_trans hbs (le_trans (le_of_lt hI2) hevb)))
      refine ⟨?_, ?_, ?_⟩
      · intro _
        exact le_min hevv (le_trans hgv hsv)
      · intro hge
        have hb0a : b0 ≤ a := le_trans hge (le_trans (min_le_right ev _) hbs)
        exact absurd hb0a (not_le.mpr (lt_of_lt_of_le hI2 hbb0))
      · intro hlt _
        exact absurd (lt_of_lt_of_le hlt (le_trans (min_le_right ev _) hbs)) (lt_irrefl a)
    · rw [if_neg hbr]
      have hI2n : a < min b (min ev (f m a b)) := not_le.mp hbr
      have hsb : a < f m a b :=
        lt_of_lt_of_le hI2n (le_trans (min_le_right b _) (min_le_right ev _))
      have hI1n : min b (min ev (f m a b)) = min b0 (min ev (f m a b)) := by
        rw [hI1, min_assoc]
        congr 1
        rw [← min_assoc, min_self]
      have hgm_ge : min b (min ev (f m a b)) ≤ g m := by
        rcases lt_or_le (f m a b) b with hlb | hbs2
        · rw [← kmexact hsb hlb]
          exact le_trans (min_le_right b _) (min_le_right ev _)
        · exact le_trans (min_le_left b _) (le_trans hbs2 (kmhigh hbs2))
      have hI3n : min b (min ev (f m a b)) ≤ min evm (g m) :=
        le_min (le_trans (min_le_left b _) hI3) hgm_ge
      have hI4n : b0 ≤ min ev (f m a b) → min ev (f m a b) ≤ min evm (g m) := by
        intro hle
        have hev_ge : b0 ≤ ev := le_trans hle (min_le_left ev _)
        have hs_ge : b ≤ f m a b := le_trans hbb0 (le_trans hle (min_le_right ev _))
        exact le_min (le_trans (min_le_left ev _) (hI4 hev_ge))
          (le_trans (min_le_right ev _) (kmhigh hs_ge))
      have hI5n : min ev (f m a b) < b0 → min evm (g m) ≤ min ev (f m a b) := by
        intro hlt
        rcases le_total ev (f m a b) with hes | hse
        · rw [min_eq_left hes]
          rw [min_eq_left hes] at hlt
          exact le_trans (min_le_left evm _) (hI5 hlt)
        · rw [min_eq_right hse]
          rw [min_eq_right hse] at hlt
          rcases lt_or_le (f m a b) b with hlb | hbs2
          · rw [← kmexact hsb hlb]
            exact min_le_right evm _
          · have hsev : ev ≤ f m a b := by
              have hsa2 : min b0 ev ≤ f m a b := le_trans (le_of_eq hI1.symm) hbs2
              rcases min_le_iff.mp hsa2 with hc | hc
              · exact absurd (lt_of_le_of_lt hc hlt) (lt_irrefl _)
              · exact hc
            have hevs : ev = f m a b := le_antisymm hsev hse
            rw [← hevs]
            rw [← hevs] at hlt
            exact le_trans (min_le_left evm _) (hI5 hlt)
      exact ih (min b (min ev (f m a b))) (min ev (f m a b)) (min evm (g m))
        hI1n hI2n hI3n hI4n hI5n


theorem alphabeta_KM (d : Nat) :
    ∀ (st : GameState) (mx : Color) (h : GameState → Color → Int) (a b : Ext),
      a < b → KM (alphabeta d st a b mx h) (minimax d st mx h) a b := by
  induction d with
  | zero =>
    intro st mx h a b _
    exact KM_refl (Ext.fin (h st mx)) a b
  | succ d ih =>
    intro st mx h a b hab
    by_cases hgo : isGameOver st
    · rw [show alphabeta (d + 1) st a b mx h = Ext.fin (h st mx) by
          simp [alphabeta, hgo],
        show minimax (d + 1) st mx h = Ext.fin (h st mx) by simp [minimax, hgo]]
      exact KM_refl _ a b
    · by_cases hmv : (lineCapMove st st.current).hotBitsCoords = []
      · rw [show alphabeta (d + 1) st a b mx h = minimax d st mx h by
            simp [alphabeta, hgo, hmv],
          show minimax (d + 1) st mx h = minimax d st mx h by simp [minimax, hgo, hmv]]
        exact KM_refl _ a b
      · by_cases hturn : mx = st.current
        · rw [show alphabeta (d + 1) st a b mx h =
              abFoldMax (fun m a2 b2 => alphabeta d (playMove st m) a2 b2 mx h) b
                ((lineCapMove st st.current).hotBitsCoords) a ⊥ by
              simp [alphabeta, hgo, hmv, hturn],
            show minimax (d + 1) st mx h =
              ((lineCapMove st st.current).hotBitsCoords).foldl
                (fun ev m => max ev (minimax d (playMove st m) mx h)) ⊥ by
              simp [minimax, hgo, hmv, hturn]]
          exact abFoldMax_KM _ (fun m => minimax d (playMove st m) mx h) b a
            (fun m a2 b2 h2 => ih (playMove st m) mx h a2 b2 h2)
            ((lineCapMove st st.current).hotBitsCoords) a ⊥ ⊥
            (max_eq_left bot_le).symm hab bot_le (fun _ => le_rfl)
            (fun hc => absurd hc not_lt_bot)
        · rw [show alphabeta (d + 1) st a b mx h =
              abFoldMin (fun m a2 b2 => alphabeta d (playMove st m) a2 b2 mx h) a
                ((lineCapMove st st.current).hotBitsCoords) b ⊤ by
              simp [alphabeta, hgo, hmv, hturn],
            show minimax (d + 1) st mx h =
              ((lineCapMove st st.current).hotBitsCoords).foldl
                (fun ev m => min ev (minimax d (playMove st m) mx h)) ⊤ by
              simp [minimax, hgo, hmv, hturn]]
          exact abFoldMin_KM _ (fun m => minimax d (playMove st m) mx h) a b
            (fun m a2 b2 h2 => ih (playMove st m) mx h a2 b2 h2)
            ((lineCapMove st st.current).hotBitsCoords) b ⊤ ⊤
            (min_eq_left le_top).symm hab le_top (fun _ => le_rfl)
            (fun hc => absurd hc not_top_lt)


theorem alphabeta_full_window (depth : Nat) (st : GameState) (maxPlayer : Color)
    (h : GameState → Color → Int) :
    alphabeta depth st ⊥ ⊤ maxPlayer h = minimax depth st maxPlayer h := by
  obtain ⟨k1, k2, k3⟩ := alphabeta_KM depth st maxPlayer h ⊥ ⊤ bot_lt_top
  rcases le_or_lt (alphabeta depth st ⊥ ⊤ maxPlayer h) ⊥ with hle | hgt
  · have h2 := k1 hle
    have h1 : alphabeta depth st ⊥ ⊤ maxPlayer h = ⊥ := le_bot_iff.mp hle
    rw [h1] at h2 ⊢
    exact (le_bot_iff.mp h2).symm
  · rcases le_or_lt ⊤ (alphabeta depth st ⊥ ⊤ maxPlayer h) with hge | hlt
    · have h2 := k2 hge
      have h1 : alphabeta depth st ⊥ ⊤ maxPlayer h = ⊤ := top_le_iff.mp hge
      rw [h1] at h2 ⊢
      exact (top_le_iff.mp h2).symm
    · exact k3 hgt hlt


/-- C2: with the full window `(-inf, +inf)`, alpha-beta pruning never
changes the final score: `alphabeta(state, depth, -inf, +inf, color, h)`
equals `minimax(state, depth, color, h)` for every state, every depth
(hence every depth ≥ 1), every maximizing color, and every integer-valued
heuristic function. -/
theorem alphabeta_eq_minimax (depth : Nat) (st : GameState) (maxPlayer : Color)
    (h : GameState → Color → Int) :
    alphabeta depth st ⊥ ⊤ maxPlayer h = minimax depth st maxPlayer h :=
  alphabeta_full_window depth st maxPlayer h


/-! ## find_best_move with a single legal move (C6) -/

theorem fin_ne_bot (n : Int) : Ext.fin n ≠ ⊥ := WithBot.coe_ne_bot


theorem fin_max_fin (j k : Int) : max (Ext.fin j) (Ext.fin k) = Ext.fin (max j k) := by
  show max ((j : WithTop ℤ) : Ext) ((k : WithTop ℤ) : Ext) = _
  rw [← WithBot.coe_max, ← WithTop.coe_max]
  rfl


theorem fin_min_fin (j k : Int) : min (Ext.fin j) (Ext.fin k) = Ext.fin (min j k) := by
  show min ((j : WithTop ℤ) : Ext) ((k : WithTop ℤ) : Ext) = _
  rw [← WithBot.coe_min, ← WithTop.coe_min]
  rfl


theorem foldl_max_fin (g : Nat × Nat → Ext) (hg : ∀ m, ∃ n : Int, g m = Ext.fin n) :
    ∀ (l : List (Nat × Nat)) (ev : Ext),
      ((ev = ⊥ ∧ l ≠ []) ∨ ∃ n : Int, ev = Ext.fin n) →
      ∃ n : Int, l.foldl (fun e m => max e (g m)) ev = Ext.fin n
  | [], ev => fun hc => by
    rcases hc with ⟨_, hne⟩ | hfin
    · exact absurd rfl hne
    · exact hfin
  | m :: ms, ev => fun hc => by
    obtain ⟨k, hk⟩ := hg m
    rcases hc with ⟨rfl, _⟩ | ⟨j, rfl⟩
    · refine foldl_max_fin g hg ms (max ⊥ (g m)) (Or.inr ⟨k, ?_⟩)
      rw [max_eq_right bot_le, hk]
    · refine foldl_max_fin g hg ms _ (Or.inr ⟨max j k, ?_⟩)
      show max (Ext.fin j) (g m) = _
      rw [hk, fin_max_fin]


theorem foldl_min_fin (g : Nat × Nat → Ext) (hg : ∀ m, ∃ n : Int, g m = Ext.fin n) :
    ∀ (l : List (Nat × Nat)) (ev : Ext),
      ((ev = ⊤ ∧ l ≠ []) ∨ ∃ n : Int, ev = Ext.fin n) →
      ∃ n : Int, l.foldl (fun e m => min e (g m)) ev = Ext.fin n
  | [], ev => fun hc => by
    rcases hc with ⟨_, hne⟩ | hfin
    · exact absurd rfl hne
    · exact hfin
  | m :: ms, ev => fun hc => by
    obtain ⟨k, hk⟩ := hg m
    rcases hc with ⟨rfl, _⟩ | ⟨j, rfl⟩
    · refine foldl_min_fin g hg ms (min ⊤ (g m)) (Or.inr ⟨k, ?_⟩)
      rw [min_eq_right le_top, hk]
    · refine foldl_min_fin g hg ms _ (Or.inr ⟨min j k, ?_⟩)
      show min (Ext.fin j) (g m) = _
      rw [hk, fin_min_fin]


/-- `minimax` always returns a finite (integer) score. -/
theorem minimax_isFin (d : Nat) :
    ∀ (st : GameState) (mx : Color) (h : GameState → Color → Int),
      ∃ n : Int, minimax d st mx h = Ext.fin n := by
  induction d with
  | zero => intro st mx h; exact ⟨h st mx, rfl⟩
  | succ d ih =>
    intro st mx h
    by_cases hgo : isGameOver st
    · exact ⟨h st mx, by simp [minimax, hgo]⟩
    · by_cases hmv : (lineCapMove st st.current).hotBitsCoords = []
      · obtain ⟨n, hn⟩ := ih st mx h
        exact ⟨n, by simp [minimax, hgo, hmv, hn]⟩
      · by_cases hturn : mx = st.current
        · rw [show minimax (d + 1) st mx h =
              ((lineCapMove st st.current).hotBitsCoords).foldl
                (fun ev m => max ev (minimax d (playMove st m) mx h)) ⊥ by
              simp [minimax, hgo, hmv, hturn]]
          exact foldl_max_fin _ (fun m => ih (playMove st m) mx h) _ ⊥
            (Or.inl ⟨rfl, hmv⟩)
        · rw [show minimax (d + 1) st mx h =
              ((lineCapMove st st.current).hotBitsCoords).foldl
                (fun ev m => min ev (minimax d (playMove st m) mx h)) ⊤ by
              simp [minimax, hgo, hmv, hturn]]
          exact foldl_min_fin _ (fun m => ih (playMove st m) mx h) _ ⊤
            (Or.inl ⟨rfl, hmv⟩)


theorem hotBits_zero (size : Nat) : ∀ f, hotBits size f 0 = []
  | 0 => rfl
  | _ + 1 => by simp [hotBits]


/-- C6 (amended): when the game is not over (`forced_game_over` unset,
and there is a legal move), the side to move has exactly one legal move,
and `max_player` equals the side to move, `find_best_move` returns that
move for every search algorithm string, every heuristic string, and every
depth ≥ 1.  (The original claim, quantified over every `max_player`, is
refuted by `find_best_move_single_move_cex`: for `max_player` different
from the side to move the best score starts at `+inf` and the strict
`score > best_score` test never fires, so `(-1, -1)` is returned.) -/
theorem find_best_move_single_move (st : GameState) (depth : Nat)
    (maxPlayer : Color) (searchAlgo heuristic : String) (x0 y0 : Nat)
    (hd : 1 ≤ depth) (hforced : st.forced = false)
    (hmax : maxPlayer = st.current)
    (hone : (lineCapMove st st.current).hotBitsCoords = [(x0, y0)]) :
    findBestMove st depth maxPlayer searchAlgo heuristic = ((x0 : Int), (y0 : Int)) := by
  have hne : (lineCapMove st st.current).bits ≠ 0 := by
    intro h0
    have hz : (lineCapMove st st.current).hotBitsCoords = [] := by
      unfold Bitboard.hotBitsCoords
      rw [h0]
      exact hotBits_zero _ _
    rw [hone] at hz
    exact List.cons_ne_nil _ _ hz
  have hpc : (lineCapMove st st.current).popcount ≠ 0 := fun h =>
    hne ((lineCapMove_popcount_zero_iff st st.current).mp h)
  have hgo : isGameOver st = false := by
    unfold isGameOver
    rw [hforced]
    simp [hpc]
  have hcond : ¬(depth = 0 ∨ isGameOver st = true) := by
    rintro (h | h)
    · omega
    · rw [hgo] at h
      exact Bool.false_ne_true h
  obtain ⟨n, hn⟩ : ∃ n : Int, (if searchAlgo = "minimax"
      then minimax (depth - 1) (playMove st (x0, y0)) maxPlayer (resolveHeuristic heuristic)
      else alphabeta (depth - 1) (playMove st (x0, y0)) ⊥ ⊤ maxPlayer
        (resolveHeuristic heuristic)) = Ext.fin n := by
    by_cases halgo : searchAlgo = "minimax"
    · rw [if_pos halgo]
      exact minimax_isFin _ _ _ _
    · rw [if_neg halgo, alphabeta_full_window]
      exact minimax_isFin _ _ _ _
  simp only [findBestMove]
  rw [if_neg hcond, hone, if_pos hmax]
  simp only [List.foldl_cons, List.foldl_nil]
  rw [hn]
  simp [bot_lt_iff_ne_bot, fin_ne_bot]


/-- Witness for C6: on the 6×6 board with black `(0,0)`, white `(1,0)`,
Black to move, the single legal move `(2,0)` is returned. -/
theorem find_best_move_single_move_witness :
    findBestMove boardOneMove 1 Color.BLACK "minimax" "corners_captured" =
      ((2 : Int), (0 : Int)) :=
  find_best_move_single_move boardOneMove 1 Color.BLACK "minimax" "corners_captured"
    2 0 (by decide) (by decide) (by decide) (by decide)


/-- Counterexample to C6 as stated: on the same single-move board, with
`max_player = WHITE` (different from the side to move, Black),
`find_best_move` returns `(-1, -1)` instead of the unique legal move
`(2, 0)`: the best score is initialised to `+inf` and the strict
`score > best_score` comparison never succeeds. -/
theorem find_best_move_single_move_cex :
    (lineCapMove boardOneMove boardOneMove.current).hotBitsCoords = [(2, 0)] ∧
    findBestMove boardOneMove 1 Color.WHITE "minimax" "corners_captured" =
      ((-1 : Int), (-1 : Int)) := by
  constructor
  · decide
  · decide

end Othello
